import Mathlib

/-!
# Verification of the Markdown translation tool

Shallow embedding of the Markdown-handling core of the repository
(`src/translation_pipeline.py`, `src/document_generator.py`,
`src/make_notes.py`, `src/google_docs_manager.py`) and proofs of the
frozen claims about it.

Strings are modelled as `List Char`.  Python's whitespace class `\s`
(and `str.strip()` / `str.rstrip()`) is modelled by `isPySpace`,
restricted to the ASCII whitespace characters.
-/

namespace MdTool

/-- Python's `\s` character class / `str.strip()` whitespace, ASCII part:
space, tab, newline, carriage return, vertical tab, form feed. -/
def isPySpace (c : Char) : Bool :=
  c == ' ' || c == '\t' || c == '\n' || c == '\r' || c == '\x0b' || c == '\x0c'

/-- Strings of the embedded programs. -/
abbrev S := List Char

/-- Coerce a Lean string literal into the model. -/
def str (s : String) : S := s.toList

/-- Drop the trailing characters satisfying `p` (Python `rstrip` with a class). -/
def dropTrailing (p : Char → Bool) (l : S) : S := (l.reverse.dropWhile p).reverse

/-- Python `s.strip()`. -/
def stripPy (l : S) : S := dropTrailing isPySpace (l.dropWhile isPySpace)

/-- Python `s.rstrip()`. -/
def rstripPy (l : S) : S := dropTrailing isPySpace l

/-- Python `s.rstrip("\n")`. -/
def rstripNl (l : S) : S := dropTrailing (· == '\n') l

/-- The non-whitespace characters of a string, in order. -/
def nonWS (l : S) : S := l.filter (fun c => !isPySpace c)

/-- `true` iff the string does not end in whitespace. -/
def noTrailWS (l : S) : Bool :=
  match l.getLast? with
  | none => true
  | some c => !isPySpace c

/-! ## Basic lemmas about the string helpers -/

theorem drop_takeWhile_length (p : Char → Bool) (l : S) :
    l.drop (l.takeWhile p).length = l.dropWhile p := by
  induction l with
  | nil => simp
  | cons c cs ih =>
    by_cases h : p c
    · simp [List.takeWhile_cons, List.dropWhile_cons, h, ih]
    · simp [List.takeWhile_cons, List.dropWhile_cons, h]

theorem dropTrailing_decomp (p : Char → Bool) (l : S) :
    ∃ suf : S, l = dropTrailing p l ++ suf ∧ suf.all p := by
  refine ⟨(l.reverse.takeWhile p).reverse, ?_, ?_⟩
  · unfold dropTrailing
    rw [← List.reverse_append, List.takeWhile_append_dropWhile]
    · simp
  · simp only [List.all_eq_true]
    intro c hc
    rw [List.mem_reverse] at hc
    exact List.mem_takeWhile_imp hc

theorem filter_eq_nil_of_all {q : Char → Bool} {p : Char → Bool} (l : S)
    (hpq : ∀ c, p c = true → q c = false) (hl : l.all p) : l.filter q = [] := by
  rw [List.filter_eq_nil_iff]
  intro c hc
  rw [List.all_eq_true] at hl
  simp [hpq c (hl c hc)]

theorem nonWS_dropTrailing {p : Char → Bool}
    (hp : ∀ c, p c = true → isPySpace c = true) (l : S) :
    nonWS (dropTrailing p l) = nonWS l := by
  obtain ⟨suf, hdecomp, hall⟩ := dropTrailing_decomp p l
  conv_rhs => rw [hdecomp]
  unfold nonWS
  rw [List.filter_append]
  have : suf.filter (fun c => !isPySpace c) = [] := by
    apply filter_eq_nil_of_all suf _ hall
    intro c hc
    simp [hp c hc]
  rw [this, List.append_nil]

theorem nonWS_dropWhile {p : Char → Bool}
    (hp : ∀ c, p c = true → isPySpace c = true) (l : S) :
    nonWS (l.dropWhile p) = nonWS l := by
  conv_rhs => rw [← List.takeWhile_append_dropWhile (p := p) (l := l)]
  unfold nonWS
  rw [List.filter_append]
  have : (l.takeWhile p).filter (fun c => !isPySpace c) = [] := by
    apply filter_eq_nil_of_all
    · intro c hc
      simp [hp c hc]
    · simp only [List.all_eq_true]
      intro c hc
      exact List.mem_takeWhile_imp hc
  rw [this, List.nil_append]

theorem nonWS_stripPy (l : S) : nonWS (stripPy l) = nonWS l := by
  unfold stripPy
  rw [nonWS_dropTrailing (fun _ h => h), nonWS_dropWhile (fun _ h => h)]

theorem nonWS_rstripNl (l : S) : nonWS (rstripNl l) = nonWS l := by
  unfold rstripNl
  apply nonWS_dropTrailing
  intro c hc
  have : c = '\n' := by simpa using hc
  simp [this, isPySpace]

theorem nonWS_rstripPy (l : S) : nonWS (rstripPy l) = nonWS l := by
  unfold rstripPy
  exact nonWS_dropTrailing (fun _ h => h) l

theorem nonWS_append (a b : S) : nonWS (a ++ b) = nonWS a ++ nonWS b := by
  unfold nonWS; simp

theorem nonWS_eq_nil_of_stripPy_eq_nil {l : S} (h : stripPy l = []) :
    nonWS l = [] := by
  rw [← nonWS_stripPy, h]; rfl

theorem head?_dropWhile_not {p : Char → Bool} (l : S) (c : Char)
    (h : (l.dropWhile p).head? = some c) : p c = false := by
  induction l with
  | nil =>
    rw [List.dropWhile_nil] at h
    exact Option.noConfusion h
  | cons x xs ih =>
    rw [List.dropWhile_cons] at h
    cases hx : p x with
    | true =>
      simp [hx] at h
      exact ih h
    | false =>
      simp [hx] at h
      subst h
      exact hx

/-- `dropTrailing` never ends in a character satisfying `p`. -/
theorem dropTrailing_getLast_not {p : Char → Bool} (l : S) (c : Char)
    (h : (dropTrailing p l).getLast? = some c) : p c = false := by
  unfold dropTrailing at h
  rw [List.getLast?_reverse] at h
  exact head?_dropWhile_not l.reverse c h

theorem noTrailWS_stripPy (l : S) : noTrailWS (stripPy l) = true := by
  unfold noTrailWS
  cases h : (stripPy l).getLast? with
  | none => rfl
  | some c =>
    have := dropTrailing_getLast_not (p := isPySpace) (l.dropWhile isPySpace) c h
    simp [this]

theorem stripPy_ne_nil_of_any {l : S} (h : l.any (fun c => !isPySpace c)) :
    stripPy l ≠ [] := by
  intro hnil
  have h1 := nonWS_eq_nil_of_stripPy_eq_nil hnil
  unfold nonWS at h1
  rw [List.filter_eq_nil_iff] at h1
  rw [List.any_eq_true] at h
  obtain ⟨c, hc, hcs⟩ := h
  exact absurd hcs (by simpa using h1 c hc)

theorem getLast?_append_of_ne_nil {a b : S} (h : b ≠ []) :
    (a ++ b).getLast? = b.getLast? := by
  induction a with
  | nil => simp
  | cons x xs ih =>
    rw [List.cons_append, List.getLast?_cons, ih]
    cases b with
    | nil => exact absurd rfl h
    | cons y ys => simp [List.getLast?_cons]

/-! ## Substring search and splitting (Python `in`, `split`, `join`) -/

/-- Leftmost occurrence of `sep`: returns `(before, after)`.  When `noNl` is
set, the scan refuses to cross a newline (used for the regex `.` which does
not match `\n`). -/
def findOcc (noNl : Bool) (sep : S) : S → Option (S × S)
  | [] => if sep.isPrefixOf ([] : S) then some ([], []) else none
  | c :: cs =>
    if sep.isPrefixOf (c :: cs) then some ([], (c :: cs).drop sep.length)
    else if noNl && c == '\n' then none
    else (findOcc noNl sep cs).map (fun p => (c :: p.1, p.2))

/-- Like `findOcc` but the part before the separator must be non-empty
(regex `(.+?)` / `([^x]+)` before a closing delimiter). -/
def findOcc1 (noNl : Bool) (sep : S) : S → Option (S × S)
  | [] => none
  | c :: cs =>
    if noNl && c == '\n' then none
    else (findOcc noNl sep cs).map (fun p => (c :: p.1, p.2))

/-- Python `sep in s` for a non-empty separator. -/
def containsSub (sep : S) (s : S) : Bool := (findOcc false sep s).isSome

/-- Python `s.split(sep, 1)`: split at the first occurrence (both parts),
identity if absent. -/
def splitOnce (sep : S) (s : S) : S × S :=
  match findOcc false sep s with
  | some (a, b) => (a, b)
  | none => (s, [])

/-- Python `s.split(sep)` (non-overlapping, leftmost-first), with fuel. -/
def splitAllF (sep : S) : Nat → S → List S
  | 0, s => [s]
  | fuel + 1, s =>
    match findOcc false sep s with
    | none => [s]
    | some (a, b) => a :: splitAllF sep fuel b

/-- Python `s.split(sep)`. -/
def splitAll (sep : S) (s : S) : List S := splitAllF sep s.length s

theorem findOcc_length {noNl : Bool} {sep : S} :
    ∀ {s a b : S}, findOcc noNl sep s = some (a, b) →
      a.length + sep.length + b.length = s.length := by
  intro s
  induction s with
  | nil =>
    intro a b h
    unfold findOcc at h
    by_cases hp : sep.isPrefixOf ([] : S)
    · rw [if_pos hp] at h
      have hsep : sep = [] := by
        cases sep with
        | nil => rfl
        | cons x xs => simp [List.isPrefixOf] at hp
      cases h
      simp [hsep]
    · rw [if_neg hp] at h
      exact Option.noConfusion h
  | cons c cs ih =>
    intro a b h
    unfold findOcc at h
    by_cases hp : sep.isPrefixOf (c :: cs)
    · rw [if_pos hp] at h
      cases h
      have hpre : sep <+: (c :: cs) := List.isPrefixOf_iff_prefix.mp hp
      have hlen : sep.length ≤ (c :: cs).length := hpre.length_le
      simp only [List.length_nil, List.length_drop, List.length_cons] at *
      omega
    · rw [if_neg hp] at h
      by_cases hnl : (noNl && c == '\n') = true
      · rw [if_pos hnl] at h
        exact Option.noConfusion h
      · rw [if_neg hnl] at h
        cases hrec : findOcc noNl sep cs with
        | none => rw [hrec] at h; exact Option.noConfusion h
        | some p =>
          rw [hrec] at h
          obtain ⟨a', b'⟩ := p
          simp at h
          obtain ⟨ha, hb⟩ := h
          have := ih hrec
          subst ha hb
          simp only [List.length_cons]
          omega

theorem findOcc1_length {noNl : Bool} {sep : S} {s a b : S}
    (h : findOcc1 noNl sep s = some (a, b)) :
    a.length + sep.length + b.length = s.length ∧ 1 ≤ a.length := by
  cases s with
  | nil => exact Option.noConfusion h
  | cons c cs =>
    have h' : (if (noNl && c == '\n') = true then none
        else (findOcc noNl sep cs).map (fun p => (c :: p.1, p.2))) = some (a, b) := h
    by_cases hnl : (noNl && c == '\n') = true
    · rw [if_pos hnl] at h'
      exact Option.noConfusion h'
    · rw [if_neg hnl] at h'
      cases hrec : findOcc noNl sep cs with
      | none => rw [hrec] at h'; exact Option.noConfusion h'
      | some p =>
        rw [hrec] at h'
        obtain ⟨a', b'⟩ := p
        simp at h'
        obtain ⟨ha, hb⟩ := h'
        have := findOcc_length hrec
        subst ha hb
        simp only [List.length_cons]
        omega

/-! ## Line classification (`translation_pipeline.py`)

`parse_markdown_lines` classifies each line with the module-level regexes

* `HEADING_RE = ^(#{1,6})\s+(.*\S)\s*$`
* `BULLET_RE  = ^(\s*)-\s+(.*\S)\s*$`
* `NUMBER_RE  = ^(\s*)(\d+)\.\s+(.*\S)\s*$`
* `HR_RE      = ^\s*---\s*$`

Each regex is embedded as an executable matcher equivalent to the
(backtracking) regex semantics: leading `\s*`/`#{1,6}`/`\d+` groups are
maximal runs (the following mandatory character is outside the class), and
`\s+(.*\S)\s*$` matched against a remainder `rest` succeeds iff `rest`
starts with whitespace and contains a non-whitespace character, the group
being `rest` stripped of surrounding whitespace. -/

/-- `\s+(.*\S)\s*$` succeeds on `rest`: starts with whitespace and has a
non-whitespace character. -/
def wsThenText (rest : S) : Bool :=
  (match rest.head? with | some c => isPySpace c | none => false)
    && rest.any (fun c => !isPySpace c)

/-- `HEADING_RE`: returns (hashes, text). -/
def headingParse (l : S) : Option (S × S) :=
  if 1 ≤ (l.takeWhile (· == '#')).length && (l.takeWhile (· == '#')).length ≤ 6
      && wsThenText (l.drop (l.takeWhile (· == '#')).length)
  then some (l.takeWhile (· == '#'), stripPy (l.drop (l.takeWhile (· == '#')).length))
  else none

/-- `BULLET_RE`: returns (leading whitespace, text). -/
def bulletParse (l : S) : Option (S × S) :=
  match l.drop (l.takeWhile isPySpace).length with
  | '-' :: r =>
    if wsThenText r then some (l.takeWhile isPySpace, stripPy r) else none
  | _ => none

/-- `^(\d+)\.\s+(.*\S)\s*$` (no leading whitespace group): returns
(digits, text). -/
def numberParseNoWs (l : S) : Option (S × S) :=
  if (l.takeWhile Char.isDigit).isEmpty then none
  else match l.drop (l.takeWhile Char.isDigit).length with
    | '.' :: r =>
      if wsThenText r
      then some (l.takeWhile Char.isDigit, stripPy r) else none
    | _ => none

/-- `NUMBER_RE`: returns (leading whitespace, digits, text). -/
def numberParse (l : S) : Option (S × S × S) :=
  (numberParseNoWs (l.drop (l.takeWhile isPySpace).length)).map
    (fun p => (l.takeWhile isPySpace, p.1, p.2))

/-- `HR_RE = ^\s*---\s*$`. -/
def hrMatch (l : S) : Bool :=
  (str "---").isPrefixOf (l.dropWhile isPySpace)
    && ((l.dropWhile isPySpace).drop 3).all isPySpace

/-- One classified line: `(kind, structural prefix, translatable text)`,
with the kind as the Python string literal. -/
abbrev LineInfo := String × S × S

/-- The per-line body of `parse_markdown_lines` (`line = raw.rstrip("\n")`
is inlined as `rstripNl raw`). -/
def parseLine (raw : S) : LineInfo :=
  if stripPy (rstripNl raw) = [] then ("blank", [], [])
  else if hrMatch (rstripNl raw) then ("hr", str "---", [])
  else match headingParse (rstripNl raw) with
  | some (h, t) => ("heading", h, t)
  | none =>
    match bulletParse (rstripNl raw) with
    | some (w, t) => ("bullet", w, t)
    | none =>
      match numberParse (rstripNl raw) with
      | some (w, d, t) => ("number", w ++ d ++ ['.'], t)
      | none => ("body", [], stripPy (rstripNl raw))

/-- `parse_markdown_lines`. -/
def parseMarkdownLines (lines : List S) : List LineInfo :=
  lines.map parseLine

/-- `texts_to_translate = [text for kind, _pfx, text in parsed if text]`
(from `process_source_file`). -/
def extractTexts (parsed : List LineInfo) : List S :=
  parsed.filterMap (fun e => if e.2.2.isEmpty then none else some e.2.2)

/-- `rebuild_markdown_from_translations`, with the running index `t_idx`
made explicit; Python's `translated_texts[t_idx]` raises `IndexError` when
out of range, modelled by `none`. -/
def rebuildAux : List LineInfo → List S → Nat → Option (List S)
  | [], _, _ => some []
  | (k, p, _) :: rest, ts, i =>
    if k = "blank" then (rebuildAux rest ts i).map (fun out => [] :: out)
    else if k = "hr" then (rebuildAux rest ts i).map (fun out => str "---" :: out)
    else if k = "heading" then
      match ts.get? i with
      | none => none
      | some t => (rebuildAux rest ts (i + 1)).map (fun out => (p ++ str " " ++ t) :: out)
    else if k = "bullet" then
      match ts.get? i with
      | none => none
      | some t => (rebuildAux rest ts (i + 1)).map (fun out => (p ++ str "- " ++ t) :: out)
    else if k = "number" then
      match ts.get? i with
      | none => none
      | some t => (rebuildAux rest ts (i + 1)).map (fun out => (p ++ str " " ++ t) :: out)
    else if k = "body" then
      match ts.get? i with
      | none => none
      | some t => (rebuildAux rest ts (i + 1)).map (fun out => t :: out)
    else rebuildAux rest ts i

/-- `rebuild_markdown_from_translations(parsed, translated_texts)`. -/
def rebuildMarkdown (parsed : List LineInfo) (ts : List S) : Option (List S) :=
  rebuildAux parsed ts 0

/-- Modelled from the spec (§3, "Translation round-trip artifact"):
sequential head-consumption of the translated texts, one per translatable
slot, each reinserted after the slot's structural prefix.  Reference
definition for the refinement proof that the code's index-based rebuild
consumes the texts in exactly this order. -/
def rebuildSpecSeq : List LineInfo → List S → List S
  | [], _ => []
  | (k, p, _) :: rest, ts =>
    if k = "blank" then [] :: rebuildSpecSeq rest ts
    else if k = "hr" then str "---" :: rebuildSpecSeq rest ts
    else if k = "heading" then (p ++ str " " ++ ts.headD []) :: rebuildSpecSeq rest ts.tail
    else if k = "bullet" then (p ++ str "- " ++ ts.headD []) :: rebuildSpecSeq rest ts.tail
    else if k = "number" then (p ++ str " " ++ ts.headD []) :: rebuildSpecSeq rest ts.tail
    else if k = "body" then ts.headD [] :: rebuildSpecSeq rest ts.tail
    else rebuildSpecSeq rest ts

/-! ## Inversion lemmas for the line matchers -/

theorem digit_not_space {c : Char} (h : c.isDigit = true) : isPySpace c = false := by
  by_contra hc
  simp only [Bool.not_eq_false] at hc
  unfold isPySpace at hc
  rcases Bool.or_eq_true_iff.mp hc with h5 | h6
  · rcases Bool.or_eq_true_iff.mp h5 with h3 | h4
    · rcases Bool.or_eq_true_iff.mp h3 with h1 | h2
      · rcases Bool.or_eq_true_iff.mp h1 with ha | hb
        · rcases Bool.or_eq_true_iff.mp ha with hx | hy
          · rw [show c = ' ' from by simpa using hx] at h; simp [Char.isDigit] at h
          · rw [show c = '\t' from by simpa using hy] at h; simp [Char.isDigit] at h
        · rw [show c = '\n' from by simpa using hb] at h; simp [Char.isDigit] at h
      · rw [show c = '\r' from by simpa using h2] at h; simp [Char.isDigit] at h
    · rw [show c = '\x0b' from by simpa using h4] at h; simp [Char.isDigit] at h
  · rw [show c = '\x0c' from by simpa using h6] at h; simp [Char.isDigit] at h

theorem wsThenText_any {r : S} (h : wsThenText r = true) :
    r.any (fun c => !isPySpace c) = true :=
  ((Bool.and_eq_true _ _).mp h).2

theorem headingParse_eq_some {l h t : S} (hp : headingParse l = some (h, t)) :
    h = l.takeWhile (· == '#') ∧ t = stripPy (l.drop h.length) ∧
      (l.drop h.length).any (fun c => !isPySpace c) = true ∧ 1 ≤ h.length := by
  unfold headingParse at hp
  split at hp
  · rename_i hguard
    injection hp with hp'
    injection hp' with h1 h2
    subst h1
    subst h2
    refine ⟨rfl, rfl, ?_, ?_⟩
    · exact wsThenText_any ((Bool.and_eq_true _ _).mp hguard).2
    · have h1 := (Bool.and_eq_true _ _).mp hguard
      have h2 := (Bool.and_eq_true _ _).mp h1.1
      simpa using h2.1
  · exact Option.noConfusion hp

theorem bulletParse_eq_some {l w t : S} (hp : bulletParse l = some (w, t)) :
    w = l.takeWhile isPySpace ∧
      ∃ r : S, l.drop w.length = '-' :: r ∧ t = stripPy r ∧
        r.any (fun c => !isPySpace c) = true := by
  unfold bulletParse at hp
  split at hp
  · rename_i r heq
    split at hp
    · rename_i hguard
      injection hp with hp'
      injection hp' with h1 h2
      subst h1
      subst h2
      exact ⟨rfl, r, heq, rfl, wsThenText_any hguard⟩
    · exact Option.noConfusion hp
  · exact Option.noConfusion hp

theorem numberParseNoWs_eq_some {l d t : S} (hp : numberParseNoWs l = some (d, t)) :
    d = l.takeWhile Char.isDigit ∧ ¬d.isEmpty ∧
      ∃ r : S, l.drop d.length = '.' :: r ∧ t = stripPy r ∧
        r.any (fun c => !isPySpace c) = true := by
  unfold numberParseNoWs at hp
  split at hp
  · exact Option.noConfusion hp
  · rename_i hne
    split at hp
    · rename_i r heq
      split at hp
      · rename_i hguard
        injection hp with hp'
        injection hp' with h1 h2
        subst h1
        subst h2
        exact ⟨rfl, by simpa using hne, r, heq, rfl, wsThenText_any hguard⟩
      · exact Option.noConfusion hp
    · exact Option.noConfusion hp

theorem numberParse_eq_some {l w d t : S} (hp : numberParse l = some (w, d, t)) :
    w = l.takeWhile isPySpace ∧
      numberParseNoWs (l.drop w.length) = some (d, t) := by
  unfold numberParse at hp
  cases hrec : numberParseNoWs (l.drop (l.takeWhile isPySpace).length) with
  | none => rw [hrec] at hp; exact Option.noConfusion hp
  | some p =>
    rw [hrec] at hp
    obtain ⟨d', t'⟩ := p
    simp at hp
    obtain ⟨h1, h2, h3⟩ := hp
    subst h1 h2 h3
    exact ⟨rfl, hrec⟩

theorem hrMatch_decomp {l : S} (hm : hrMatch l = true) :
    ∃ r2 : S, l.dropWhile isPySpace = str "---" ++ r2 ∧ r2.all isPySpace = true := by
  unfold hrMatch at hm
  obtain ⟨h1, h2⟩ := (Bool.and_eq_true _ _).mp hm
  obtain ⟨r2, hr2⟩ := List.isPrefixOf_iff_prefix.mp h1
  refine ⟨(l.dropWhile isPySpace).drop 3, ?_, h2⟩
  conv_lhs => rw [← hr2]
  congr 1
  rw [← hr2]
  simp [str]

/-! ## Per-line round-trip facts -/

/-- The line that `rebuild_markdown_from_translations` emits for an entry
when the "translation" is the entry's own extracted text. -/
def ownRebuild (e : LineInfo) : S :=
  if e.1 = "blank" then []
  else if e.1 = "hr" then str "---"
  else if e.1 = "heading" then e.2.1 ++ str " " ++ e.2.2
  else if e.1 = "bullet" then e.2.1 ++ str "- " ++ e.2.2
  else if e.1 = "number" then e.2.1 ++ str " " ++ e.2.2
  else if e.1 = "body" then e.2.2
  else []

theorem noTrailWS_append {a t : S} (h : t ≠ []) :
    noTrailWS (a ++ t) = noTrailWS t := by
  unfold noTrailWS
  rw [getLast?_append_of_ne_nil h]

theorem nonWS_of_all_space {l : S} (h : l.all isPySpace = true) : nonWS l = [] :=
  filter_eq_nil_of_all l (fun c hc => by simp [hc]) h

theorem nonWS_takeWhile_space (l : S) :
    nonWS (l.takeWhile isPySpace) = [] := by
  apply nonWS_of_all_space
  simp only [List.all_eq_true]
  intro c hc
  exact List.mem_takeWhile_imp hc

theorem takeWhile_drop_split (p : Char → Bool) (l : S) :
    l = l.takeWhile p ++ l.drop (l.takeWhile p).length := by
  rw [drop_takeWhile_length]
  exact (List.takeWhile_append_dropWhile (p := p) (l := l)).symm

/-- The per-line guarantees of `parseLine`: the kind is one of the six
Python literals, the text is empty exactly for `blank`/`hr`, and
re-emitting the entry with its own text reproduces the raw line up to
whitespace (and without trailing whitespace). -/
theorem parseLine_spec (raw : S) :
    (parseLine raw).1 ∈ (["blank", "hr", "heading", "bullet", "number", "body"] : List String) ∧
    ((parseLine raw).2.2 = [] ↔ (parseLine raw).1 ∈ (["blank", "hr"] : List String)) ∧
    nonWS (ownRebuild (parseLine raw)) = nonWS raw ∧
    noTrailWS (ownRebuild (parseLine raw)) = true := by
  have hraw : nonWS (rstripNl raw) = nonWS raw := nonWS_rstripNl raw
  unfold parseLine
  by_cases hb : stripPy (rstripNl raw) = []
  · rw [if_pos hb]
    refine ⟨by simp, by simp, ?_, by simp [ownRebuild, noTrailWS]⟩
    show nonWS [] = nonWS raw
    rw [← hraw, nonWS_eq_nil_of_stripPy_eq_nil hb]
    rfl
  · rw [if_neg hb]
    by_cases hhr : hrMatch (rstripNl raw) = true
    · rw [if_pos hhr]
      obtain ⟨r2, hdec, hall⟩ := hrMatch_decomp hhr
      have h1 : nonWS (rstripNl raw) = str "---" := by
        rw [← nonWS_dropWhile (p := isPySpace) (fun _ h => h), hdec, nonWS_append,
          nonWS_of_all_space hall]
        simp [nonWS, str, isPySpace]
      refine ⟨by simp, by simp, ?_, by simp [ownRebuild, noTrailWS, str, isPySpace]⟩
      show nonWS (str "---") = nonWS raw
      rw [← hraw, h1]
      decide
    · rw [if_neg hhr]
      cases hh : headingParse (rstripNl raw) with
      | some pht =>
        obtain ⟨h, t⟩ := pht
        obtain ⟨hh1, ht, hany, _⟩ := headingParse_eq_some hh
        have htne : t ≠ [] := by rw [ht]; exact stripPy_ne_nil_of_any hany
        have hsplit : rstripNl raw = h ++ (rstripNl raw).drop h.length := by
          conv_lhs => rw [takeWhile_drop_split (· == '#') (rstripNl raw)]
          rw [hh1]
        have hnh : nonWS h = h := by
          unfold nonWS
          rw [List.filter_eq_self]
          intro c hc
          rw [hh1] at hc
          have hc' := List.mem_takeWhile_imp hc
          have : c = '#' := by simpa using hc'
          simp [this, isPySpace]
        refine ⟨by simp, ?_, ?_, ?_⟩
        · simp only [List.mem_cons]
          constructor
          · intro hteq; exact absurd hteq htne
          · intro hmem; simp at hmem
        · show nonWS (h ++ str " " ++ t) = nonWS raw
          rw [← hraw]
          conv_rhs => rw [hsplit]
          rw [nonWS_append, nonWS_append, nonWS_append, hnh, ht, nonWS_stripPy]
          congr 1
          simp [nonWS, str, isPySpace]
        · show noTrailWS (h ++ str " " ++ t) = true
          rw [List.append_assoc, noTrailWS_append (by simp [htne]),
            noTrailWS_append htne, ht]
          exact noTrailWS_stripPy _
      | none =>
        cases hbl : bulletParse (rstripNl raw) with
        | some pwt =>
          obtain ⟨w, t⟩ := pwt
          obtain ⟨hw, r, hr, ht, hany⟩ := bulletParse_eq_some hbl
          have htne : t ≠ [] := by rw [ht]; exact stripPy_ne_nil_of_any hany
          have hsplit : rstripNl raw = w ++ ('-' :: r) := by
            conv_lhs => rw [takeWhile_drop_split isPySpace (rstripNl raw)]
            rw [← hw, hr]
          refine ⟨by simp, ?_, ?_, ?_⟩
          · simp only [List.mem_cons]
            constructor
            · intro hteq; exact absurd hteq htne
            · intro hmem; simp at hmem
          · show nonWS (w ++ str "- " ++ t) = nonWS raw
            rw [← hraw]
            conv_rhs => rw [hsplit]
            rw [nonWS_append, nonWS_append, nonWS_append, hw, nonWS_takeWhile_space,
              ht, nonWS_stripPy]
            have h2 : nonWS ('-' :: r) = '-' :: nonWS r := by
              simp [nonWS, List.filter_cons, isPySpace]
            rw [h2]
            simp [nonWS, str, isPySpace]
          · show noTrailWS (w ++ str "- " ++ t) = true
            rw [List.append_assoc, noTrailWS_append (by simp [htne]),
              noTrailWS_append htne, ht]
            exact noTrailWS_stripPy _
        | none =>
          cases hnum : numberParse (rstripNl raw) with
          | some pwdt =>
            obtain ⟨w, d, t⟩ := pwdt
            obtain ⟨hw, hno⟩ := numberParse_eq_some hnum
            obtain ⟨hd, hdne, r, hr, ht, hany⟩ := numberParseNoWs_eq_some hno
            have htne : t ≠ [] := by rw [ht]; exact stripPy_ne_nil_of_any hany
            have hsplit0 : rstripNl raw = w ++ (rstripNl raw).drop w.length := by
              conv_lhs => rw [takeWhile_drop_split isPySpace (rstripNl raw)]
              rw [hw]
            have hsplit1 : (rstripNl raw).drop w.length = d ++ ('.' :: r) := by
              conv_lhs => rw [← List.take_append_drop d.length ((rstripNl raw).drop w.length), hr]
              congr 1
              rw [hd]
              exact (List.prefix_iff_eq_take.mp (List.takeWhile_prefix _)).symm
            have hnd : nonWS d = d := by
              unfold nonWS
              rw [List.filter_eq_self]
              intro c hc
              rw [hd] at hc
              have hc' := List.mem_takeWhile_imp hc
              simp [digit_not_space hc']
            refine ⟨by simp, ?_, ?_, ?_⟩
            · simp only [List.mem_cons]
              constructor
              · intro hteq; exact absurd hteq htne
              · intro hmem; simp at hmem
            · show nonWS (w ++ d ++ ['.'] ++ str " " ++ t) = nonWS raw
              rw [← hraw]
              conv_rhs => rw [hsplit0, hsplit1]
              rw [nonWS_append, nonWS_append, nonWS_append, nonWS_append,
                nonWS_append, hw, nonWS_takeWhile_space, hnd, ht, nonWS_stripPy]
              have h2 : nonWS ('.' :: r) = '.' :: nonWS r := by
                simp [nonWS, List.filter_cons, isPySpace]
              rw [nonWS_append, h2, hnd]
              simp [nonWS, str, isPySpace]
            · show noTrailWS (w ++ d ++ ['.'] ++ str " " ++ t) = true
              rw [List.append_assoc, noTrailWS_append (by simp [htne]),
                noTrailWS_append htne, ht]
              exact noTrailWS_stripPy _
          | none =>
            refine ⟨by simp, ?_, ?_, ?_⟩
            · simp only [List.mem_cons]
              constructor
              · intro hteq; exact absurd hteq hb
              · intro hmem; simp at hmem
            · show nonWS (stripPy (rstripNl raw)) = nonWS raw
              rw [nonWS_stripPy, hraw]
            · show noTrailWS (stripPy (rstripNl raw)) = true
              exact noTrailWS_stripPy _

/-! ## Rebuild machinery -/

/-- The invariants every entry produced by `parseLine` satisfies. -/
def WfEntry (e : LineInfo) : Prop :=
  e.1 ∈ (["blank", "hr", "heading", "bullet", "number", "body"] : List String) ∧
  (e.2.2 = [] ↔ e.1 ∈ (["blank", "hr"] : List String))

theorem parseLine_wf (raw : S) : WfEntry (parseLine raw) :=
  ⟨(parseLine_spec raw).1, (parseLine_spec raw).2.1⟩

theorem extract_cons_nil (k : String) (p : S) (rest : List LineInfo) :
    extractTexts ((k, p, ([] : S)) :: rest) = extractTexts rest := by
  simp [extractTexts]

theorem extract_cons_ne (k : String) (p : S) {t : S} (rest : List LineInfo)
    (h : t ≠ []) : extractTexts ((k, p, t) :: rest) = t :: extractTexts rest := by
  simp [extractTexts, List.filterMap_cons, List.isEmpty_iff, h]

theorem get?_append_cons (pre : List S) (t : S) (ts : List S) :
    (pre ++ t :: ts).get? pre.length = some t := by
  induction pre with
  | nil => rfl
  | cons x xs ih => simpa using ih

/-- The index-based rebuild of `rebuild_markdown_from_translations` refines
the sequential head-consumption of the spec: when exactly as many
translations are supplied as there are translatable slots, the rebuild
succeeds and consumes them in order. -/
theorem rebuildAux_spec :
    ∀ (parsed : List LineInfo), (∀ e ∈ parsed, WfEntry e) →
      ∀ (ts pre : List S), ts.length = (extractTexts parsed).length →
        rebuildAux parsed (pre ++ ts) pre.length = some (rebuildSpecSeq parsed ts) := by
  intro parsed
  induction parsed with
  | nil =>
    intro _ ts pre _
    rfl
  | cons e rest ih =>
    intro hwf ts pre hlen
    obtain ⟨k, p, t⟩ := e
    have hwfe := hwf _ (List.mem_cons_self _ _)
    have hwfr : ∀ e ∈ rest, WfEntry e := fun e he => hwf e (List.mem_cons_of_mem _ he)
    obtain ⟨hk, hiff⟩ := hwfe
    simp only [List.mem_cons, List.not_mem_nil, or_false] at hk
    rcases hk with hk | hk | hk | hk | hk | hk
    · -- blank
      subst hk
      have ht : t = [] := hiff.mpr (by simp)
      subst ht
      rw [extract_cons_nil] at hlen
      show (rebuildAux rest (pre ++ ts) pre.length).map (fun out => [] :: out)
        = some (rebuildSpecSeq (("blank", p, ([] : S)) :: rest) ts)
      rw [ih hwfr ts pre hlen]
      rfl
    · -- hr
      subst hk
      have ht : t = [] := hiff.mpr (by simp)
      subst ht
      rw [extract_cons_nil] at hlen
      show (rebuildAux rest (pre ++ ts) pre.length).map (fun out => str "---" :: out)
        = some (rebuildSpecSeq (("hr", p, ([] : S)) :: rest) ts)
      rw [ih hwfr ts pre hlen]
      rfl
    · -- heading
      subst hk
      have ht : t ≠ [] := fun h => by simpa using hiff.mp h
      rw [extract_cons_ne _ _ _ ht] at hlen
      cases ts with
      | nil => simp at hlen
      | cons t' ts' =>
        simp only [List.length_cons, Nat.succ.injEq] at hlen
        show (match (pre ++ t' :: ts').get? pre.length with
          | none => none
          | some tr => (rebuildAux rest (pre ++ t' :: ts') (pre.length + 1)).map
              (fun out => (p ++ str " " ++ tr) :: out))
          = some (rebuildSpecSeq (("heading", p, t) :: rest) (t' :: ts'))
        rw [get?_append_cons]
        have hre : pre ++ t' :: ts' = (pre ++ [t']) ++ ts' := by simp
        have hlen' : (pre ++ [t']).length = pre.length + 1 := by simp
        rw [hre, ← hlen', ih hwfr ts' (pre ++ [t']) hlen]
        rfl
    · -- bullet
      subst hk
      have ht : t ≠ [] := fun h => by simpa using hiff.mp h
      rw [extract_cons_ne _ _ _ ht] at hlen
      cases ts with
      | nil => simp at hlen
      | cons t' ts' =>
        simp only [List.length_cons, Nat.succ.injEq] at hlen
        show (match (pre ++ t' :: ts').get? pre.length with
          | none => none
          | some tr => (rebuildAux rest (pre ++ t' :: ts') (pre.length + 1)).map
              (fun out => (p ++ str "- " ++ tr) :: out))
          = some (rebuildSpecSeq (("bullet", p, t) :: rest) (t' :: ts'))
        rw [get?_append_cons]
        have hre : pre ++ t' :: ts' = (pre ++ [t']) ++ ts' := by simp
        have hlen' : (pre ++ [t']).length = pre.length + 1 := by simp
        rw [hre, ← hlen', ih hwfr ts' (pre ++ [t']) hlen]
        rfl
    · -- number
      subst hk
      have ht : t ≠ [] := fun h => by simpa using hiff.mp h
      rw [extract_cons_ne _ _ _ ht] at hlen
      cases ts with
      | nil => simp at hlen
      | cons t' ts' =>
        simp only [List.length_cons, Nat.succ.injEq] at hlen
        show (match (pre ++ t' :: ts').get? pre.length with
          | none => none
          | some tr => (rebuildAux rest (pre ++ t' :: ts') (pre.length + 1)).map
              (fun out => (p ++ str " " ++ tr) :: out))
          = some (rebuildSpecSeq (("number", p, t) :: rest) (t' :: ts'))
        rw [get?_append_cons]
        have hre : pre ++ t' :: ts' = (pre ++ [t']) ++ ts' := by simp
        have hlen' : (pre ++ [t']).length = pre.length + 1 := by simp
        rw [hre, ← hlen', ih hwfr ts' (pre ++ [t']) hlen]
        rfl
    · -- body
      subst hk
      have ht : t ≠ [] := fun h => by simpa using hiff.mp h
      rw [extract_cons_ne _ _ _ ht] at hlen
      cases ts with
      | nil => simp at hlen
      | cons t' ts' =>
        simp only [List.length_cons, Nat.succ.injEq] at hlen
        show (match (pre ++ t' :: ts').get? pre.length with
          | none => none
          | some tr => (rebuildAux rest (pre ++ t' :: ts') (pre.length + 1)).map
              (fun out => tr :: out))
          = some (rebuildSpecSeq (("body", p, t) :: rest) (t' :: ts'))
        rw [get?_append_cons]
        have hre : pre ++ t' :: ts' = (pre ++ [t']) ++ ts' := by simp
        have hlen' : (pre ++ [t']).length = pre.length + 1 := by simp
        rw [hre, ← hlen', ih hwfr ts' (pre ++ [t']) hlen]
        rfl

/-- With the identity "translation" (each slot receives its own extracted
text), the sequential rebuild reproduces each entry's own line. -/
theorem rebuildSpecSeq_own :
    ∀ (parsed : List LineInfo), (∀ e ∈ parsed, WfEntry e) →
      rebuildSpecSeq parsed (extractTexts parsed) = parsed.map ownRebuild := by
  intro parsed
  induction parsed with
  | nil => intro _; rfl
  | cons e rest ih =>
    intro hwf
    obtain ⟨k, p, t⟩ := e
    have hwfe := hwf _ (List.mem_cons_self _ _)
    have hwfr : ∀ e ∈ rest, WfEntry e := fun e he => hwf e (List.mem_cons_of_mem _ he)
    obtain ⟨hk, hiff⟩ := hwfe
    simp only [List.mem_cons, List.not_mem_nil, or_false] at hk
    rcases hk with hk | hk | hk | hk | hk | hk <;> subst hk
    · have ht : t = [] := hiff.mpr (by simp)
      subst ht
      rw [extract_cons_nil]
      show [] :: rebuildSpecSeq rest (extractTexts rest)
        = ownRebuild ("blank", p, []) :: rest.map ownRebuild
      rw [ih hwfr]
      rfl
    · have ht : t = [] := hiff.mpr (by simp)
      subst ht
      rw [extract_cons_nil]
      show str "---" :: rebuildSpecSeq rest (extractTexts rest)
        = ownRebuild ("hr", p, []) :: rest.map ownRebuild
      rw [ih hwfr]
      rfl
    · have ht : t ≠ [] := fun h => by simpa using hiff.mp h
      rw [extract_cons_ne _ _ _ ht]
      show (p ++ str " " ++ t) :: rebuildSpecSeq rest (extractTexts rest)
        = ownRebuild ("heading", p, t) :: rest.map ownRebuild
      rw [ih hwfr]
      rfl
    · have ht : t ≠ [] := fun h => by simpa using hiff.mp h
      rw [extract_cons_ne _ _ _ ht]
      show (p ++ str "- " ++ t) :: rebuildSpecSeq rest (extractTexts rest)
        = ownRebuild ("bullet", p, t) :: rest.map ownRebuild
      rw [ih hwfr]
      rfl
    · have ht : t ≠ [] := fun h => by simpa using hiff.mp h
      rw [extract_cons_ne _ _ _ ht]
      show (p ++ str " " ++ t) :: rebuildSpecSeq rest (extractTexts rest)
        = ownRebuild ("number", p, t) :: rest.map ownRebuild
      rw [ih hwfr]
      rfl
    · have ht : t ≠ [] := fun h => by simpa using hiff.mp h
      rw [extract_cons_ne _ _ _ ht]
      show t :: rebuildSpecSeq rest (extractTexts rest)
        = ownRebuild ("body", p, t) :: rest.map ownRebuild
      rw [ih hwfr]
      rfl

theorem parseMarkdownLines_wf (lines : List S) :
    ∀ e ∈ parseMarkdownLines lines, WfEntry e := by
  intro e he
  unfold parseMarkdownLines at he
  obtain ⟨raw, _, hraw⟩ := List.mem_map.mp he
  rw [← hraw]
  exact parseLine_wf raw

theorem forall2_own (lines : List S) :
    List.Forall₂ (fun o i => nonWS o = nonWS i ∧ noTrailWS o = true)
      (lines.map (fun raw => ownRebuild (parseLine raw))) lines := by
  induction lines with
  | nil => exact List.Forall₂.nil
  | cons raw rest ih =>
    exact List.Forall₂.cons ⟨(parseLine_spec raw).2.2.1, (parseLine_spec raw).2.2.2⟩ ih

/-- C1: Parsing with `parse_markdown_lines`, extracting the texts of all
entries with non-empty text in order, applying the identity function in
place of the translator, and rebuilding with
`rebuild_markdown_from_translations` succeeds and yields Markdown
byte-identical to the input up to the whitespace normalization the
classifier performs: the output has one line per input line, each output
line consists of exactly the corresponding input line's non-whitespace
characters in order, and no output line carries trailing whitespace. -/
theorem round_trip_identity (lines : List S) :
    (rebuildMarkdown (parseMarkdownLines lines)
        (extractTexts (parseMarkdownLines lines))).isSome = true ∧
    List.Forall₂ (fun o i => nonWS o = nonWS i ∧ noTrailWS o = true)
      ((rebuildMarkdown (parseMarkdownLines lines)
          (extractTexts (parseMarkdownLines lines))).getD []) lines := by
  have hwf := parseMarkdownLines_wf lines
  have h1 : rebuildMarkdown (parseMarkdownLines lines)
      (extractTexts (parseMarkdownLines lines))
      = some ((parseMarkdownLines lines).map ownRebuild) := by
    have h0 := rebuildAux_spec (parseMarkdownLines lines) hwf
      (extractTexts (parseMarkdownLines lines)) [] rfl
    rw [rebuildSpecSeq_own _ hwf] at h0
    exact h0
  rw [h1]
  refine ⟨rfl, ?_⟩
  show List.Forall₂ _ ((parseMarkdownLines lines).map ownRebuild) lines
  unfold parseMarkdownLines
  rw [List.map_map]
  exact forall2_own lines

theorem extract_eq_filter :
    ∀ (parsed : List LineInfo), (∀ e ∈ parsed, WfEntry e) →
      extractTexts parsed
        = (parsed.filter (fun e =>
            e.1 ∈ (["heading", "bullet", "number", "body", "blockquote"] : List String))).map
            (fun e => e.2.2) := by
  intro parsed
  induction parsed with
  | nil => intro _; rfl
  | cons e rest ih =>
    intro hwf
    obtain ⟨k, p, t⟩ := e
    have hwfe := hwf _ (List.mem_cons_self _ _)
    have hwfr : ∀ e ∈ rest, WfEntry e := fun e he => hwf e (List.mem_cons_of_mem _ he)
    obtain ⟨hk, hiff⟩ := hwfe
    simp only [List.mem_cons, List.not_mem_nil, or_false] at hk
    rcases hk with hk | hk | hk | hk | hk | hk <;> subst hk
    · have ht : t = [] := hiff.mpr (by simp)
      subst ht
      rw [extract_cons_nil, ih hwfr]
      rw [List.filter_cons]
      simp
    · have ht : t = [] := hiff.mpr (by simp)
      subst ht
      rw [extract_cons_nil, ih hwfr]
      rw [List.filter_cons]
      simp
    · have ht : t ≠ [] := fun h => by simpa using hiff.mp h
      rw [extract_cons_ne _ _ _ ht, ih hwfr]
      rw [List.filter_cons]
      simp
    · have ht : t ≠ [] := fun h => by simpa using hiff.mp h
      rw [extract_cons_ne _ _ _ ht, ih hwfr]
      rw [List.filter_cons]
      simp
    · have ht : t ≠ [] := fun h => by simpa using hiff.mp h
      rw [extract_cons_ne _ _ _ ht, ih hwfr]
      rw [List.filter_cons]
      simp
    · have ht : t ≠ [] := fun h => by simpa using hiff.mp h
      rw [extract_cons_ne _ _ _ ht, ih hwfr]
      rw [List.filter_cons]
      simp

/-- C9: the extracted ordered list contains exactly one entry (its text) per
classified line whose role carries translatable text, in order; and when a
translated list of the same length is supplied, the index-based rebuild
succeeds and equals the sequential rebuild that consumes the translations
in that exact order, using each exactly once, reinserting each after the
matching slot's structural prefix. -/
theorem extract_rebuild_order (lines : List S) (ts : List S) :
    extractTexts (parseMarkdownLines lines)
      = ((parseMarkdownLines lines).filter (fun e =>
          e.1 ∈ (["heading", "bullet", "number", "body", "blockquote"] : List String))).map
          (fun e => e.2.2) ∧
    (ts.length = (extractTexts (parseMarkdownLines lines)).length →
      rebuildMarkdown (parseMarkdownLines lines) ts
        = some (rebuildSpecSeq (parseMarkdownLines lines) ts)) := by
  have hwf := parseMarkdownLines_wf lines
  refine ⟨extract_eq_filter _ hwf, ?_⟩
  intro hlen
  exact rebuildAux_spec (parseMarkdownLines lines) hwf ts [] hlen

theorem extract_rebuild_order_witness :
    rebuildMarkdown (parseMarkdownLines [str "# T", str "hello"]) [str "X", str "Y"]
      = some (rebuildSpecSeq (parseMarkdownLines [str "# T", str "hello"])
          [str "X", str "Y"]) :=
  (extract_rebuild_order [str "# T", str "hello"] [str "X", str "Y"]).2 (by decide)

/-! ## Horizontal rules -/

/-- `document_generator.py` line 777: `^\s*(---|\*\*\*)\s*$`. -/
def hrDocgen (l : S) : Bool :=
  ((str "---").isPrefixOf (l.dropWhile isPySpace)
    && ((l.dropWhile isPySpace).drop 3).all isPySpace)
  || ((str "***").isPrefixOf (l.dropWhile isPySpace)
    && ((l.dropWhile isPySpace).drop 3).all isPySpace)

theorem dropWhile_append_of_all {p : Char → Bool} {a : S} (b : S)
    (h : a.all p = true) : (a ++ b).dropWhile p = b.dropWhile p := by
  induction a with
  | nil => rfl
  | cons x xs ih =>
    simp only [List.all_cons, Bool.and_eq_true] at h
    rw [List.cons_append, List.dropWhile_cons, h.1]
    simp only [if_true]
    exact ih h.2

theorem dropTrailing_append_of_all {p : Char → Bool} (a : S) {b : S}
    (h : b.all p = true) : dropTrailing p (a ++ b) = dropTrailing p a := by
  unfold dropTrailing
  rw [List.reverse_append]
  congr 1
  apply dropWhile_append_of_all
  simp only [List.all_eq_true] at h ⊢
  intro c hc
  exact h c (List.mem_reverse.mp hc)

theorem stripPy_of_decomp {l mid r2 : S} (hdec : l.dropWhile isPySpace = mid ++ r2)
    (hall : r2.all isPySpace = true) (hmid : dropTrailing isPySpace mid = mid) :
    stripPy l = mid := by
  unfold stripPy
  rw [hdec, dropTrailing_append_of_all _ hall, hmid]

theorem genericHr_iff {m l : S} (hmid3 : m.length = 3)
    (hmidn : dropTrailing isPySpace m = m) :
    ((m.isPrefixOf (l.dropWhile isPySpace)
      && ((l.dropWhile isPySpace).drop 3).all isPySpace) = true)
    ↔ stripPy l = m := by
  constructor
  · intro h
    obtain ⟨h1, h2⟩ := (Bool.and_eq_true _ _).mp h
    obtain ⟨r2, hr2⟩ := List.isPrefixOf_iff_prefix.mp h1
    have hdrop : (l.dropWhile isPySpace).drop 3 = r2 := by
      rw [← hr2, ← hmid3]
      simp
    exact stripPy_of_decomp (hr2.symm) (hdrop ▸ h2) hmidn
  · intro h
    obtain ⟨suf, hdec, hall⟩ := dropTrailing_decomp isPySpace (l.dropWhile isPySpace)
    have hstrip : stripPy l = dropTrailing isPySpace (l.dropWhile isPySpace) := rfl
    rw [hstrip] at h
    rw [h] at hdec
    apply (Bool.and_eq_true _ _).mpr
    constructor
    · exact List.isPrefixOf_iff_prefix.mpr ⟨suf, hdec.symm⟩
    · rw [hdec, ← hmid3]
      simpa using hall

theorem hrMatch_iff (l : S) : hrMatch l = true ↔ stripPy l = str "---" := by
  unfold hrMatch
  exact genericHr_iff (by decide) (by decide)

theorem parseLine_kind_hr_iff (raw : S) :
    (parseLine raw).1 = "hr" ↔ hrMatch (rstripNl raw) = true := by
  constructor
  · intro h
    unfold parseLine at h
    by_cases hb : stripPy (rstripNl raw) = []
    · rw [if_pos hb] at h
      exact absurd h (by simp)
    · rw [if_neg hb] at h
      by_cases hhr : hrMatch (rstripNl raw) = true
      · exact hhr
      · rw [if_neg hhr] at h
        exfalso
        cases hh : headingParse (rstripNl raw) with
        | some pht =>
          obtain ⟨x, y⟩ := pht
          rw [hh] at h
          simp at h
        | none =>
          rw [hh] at h
          cases hbl : bulletParse (rstripNl raw) with
          | some pwt =>
            obtain ⟨x, y⟩ := pwt
            rw [hbl] at h
            simp at h
          | none =>
            rw [hbl] at h
            cases hn : numberParse (rstripNl raw) with
            | some pw =>
              obtain ⟨x, y, z⟩ := pw
              rw [hn] at h
              simp at h
            | none =>
              rw [hn] at h
              simp at h
  · intro hhr
    unfold parseLine
    have hb : stripPy (rstripNl raw) ≠ [] := by
      rw [(hrMatch_iff _).mp hhr]
      decide
    rw [if_neg hb, if_pos hhr]

/-- C7 counterexample: a line of four dashes (and, for the pipeline
classifier, a line of three asterisks) is classified `body`, not `hr`,
contradicting the claim that every line of three or more `-`/`*` is HR. -/
theorem hr_four_dashes_counterexample :
    (parseLine (str "----")).1 = "body" ∧ (parseLine (str "----")).1 ≠ "hr" ∧
    hrDocgen (str "----") = false ∧ hrDocgen (str "****") = false ∧
    (parseLine (str "***")).1 = "body" := by
  refine ⟨by decide, by decide, by decide, by decide, by decide⟩

/-- C7 (amended): the pipeline classifier marks a line `hr` exactly when
stripping surrounding whitespace leaves exactly `---`; the document
generator's horizontal-rule pattern accepts exactly `---` or exactly `***`
surrounded by whitespace, and nothing else. -/
theorem hr_exactly_three (l : S) :
    ((parseLine l).1 = "hr" ↔ stripPy (rstripNl l) = str "---") ∧
    (hrDocgen l = true ↔ (stripPy l = str "---" ∨ stripPy l = str "***")) := by
  constructor
  · rw [parseLine_kind_hr_iff]
    exact hrMatch_iff (rstripNl l)
  · unfold hrDocgen
    rw [Bool.or_eq_true]
    rw [genericHr_iff (m := str "---") (by decide) (by decide)]
    rw [genericHr_iff (m := str "***") (by decide) (by decide)]

/-! ## NUMBER lines -/

theorem dropWhile_eq_self_of_none {p : Char → Bool} {l : S}
    (h : ∀ c ∈ l, p c = false) : l.dropWhile p = l := by
  cases l with
  | nil => rfl
  | cons c cs =>
    rw [List.dropWhile_cons, h c (List.mem_cons_self _ _)]
    simp

theorem rstripNl_eq_self {l : S} (h : ¬ '\n' ∈ l) : rstripNl l = l := by
  unfold rstripNl dropTrailing
  rw [dropWhile_eq_self_of_none, List.reverse_reverse]
  intro c hc
  have hcl : c ∈ l := List.mem_reverse.mp hc
  simp only [beq_eq_false_iff_ne, ne_eq]
  intro he
  subst he
  exact h hcl

theorem takeWhile_head {p : Char → Bool} {l : S} (h : ¬(l.takeWhile p).isEmpty = true) :
    ∃ c cs, l = c :: cs ∧ p c = true := by
  cases l with
  | nil => simp [List.takeWhile] at h
  | cons c cs =>
    rw [List.takeWhile_cons] at h
    cases hp : p c with
    | true => exact ⟨c, cs, rfl, hp⟩
    | false =>
      rw [hp] at h
      simp at h

/-- The claim's trigger pattern: the line's trimmed-of-indentation form
matches `^\d+\.\s+\S`. -/
def claimNumberPattern (line : S) : Bool :=
  match (line.dropWhile isPySpace).drop
      ((line.dropWhile isPySpace).takeWhile Char.isDigit).length with
  | '.' :: r =>
    !((line.dropWhile isPySpace).takeWhile Char.isDigit).isEmpty && wsThenText r
  | _ => false

theorem claimNumberPattern_inv {line : S} (h : claimNumberPattern line = true) :
    ∃ r : S, (line.dropWhile isPySpace).drop
        ((line.dropWhile isPySpace).takeWhile Char.isDigit).length = '.' :: r ∧
      ¬((line.dropWhile isPySpace).takeWhile Char.isDigit).isEmpty = true ∧
      wsThenText r = true := by
  unfold claimNumberPattern at h
  split at h
  · rename_i r heq
    obtain ⟨h1, h2⟩ := (Bool.and_eq_true _ _).mp h
    exact ⟨r, heq, by simpa using h1, h2⟩
  · exact Bool.noConfusion h

/-- C6: every line whose trimmed-of-indentation form matches `^\d+\.\s+\S`
is classified NUMBER with the numeric prefix (indentation, digits, dot)
captured verbatim, rebuilding re-emits that exact prefix regardless of the
translated text, and the concrete input `1. First` / `2. Second` yields two
NUMBER entries with prefixes `1.` and `2.` preserved verbatim. -/
theorem number_prefix_preserved (line : S) (hnl : ¬ '\n' ∈ line)
    (h : claimNumberPattern line = true) :
    (parseLine line).1 = "number" ∧
    (parseLine line).2.1
      = line.takeWhile isPySpace
        ++ (line.dropWhile isPySpace).takeWhile Char.isDigit ++ ['.'] ∧
    (∀ t : S, rebuildMarkdown [parseLine line] [t]
      = some [(parseLine line).2.1 ++ str " " ++ t]) ∧
    parseMarkdownLines [str "1. First", str "2. Second"]
      = [("number", str "1.", str "First"), ("number", str "2.", str "Second")] ∧
    (∀ t1 t2 : S,
      rebuildMarkdown (parseMarkdownLines [str "1. First", str "2. Second"]) [t1, t2]
        = some [str "1." ++ str " " ++ t1, str "2." ++ str " " ++ t2]) := by
  obtain ⟨r, hr, hd, hws⟩ := claimNumberPattern_inv h
  obtain ⟨c0, cs0, hdw, hc0⟩ := takeWhile_head hd
  -- a non-whitespace character exists on the line
  have hanyline : line.any (fun c => !isPySpace c) = true := by
    obtain ⟨x, hxr, hx⟩ := List.any_eq_true.mp (wsThenText_any hws)
    rw [List.any_eq_true]
    refine ⟨x, ?_, hx⟩
    have h1 : x ∈ ('.' :: r : S) := List.mem_cons_of_mem _ hxr
    rw [← hr] at h1
    have h2 : x ∈ line.dropWhile isPySpace := (List.drop_suffix _ _).subset h1
    exact (List.dropWhile_sublist _).subset h2
  have hblank : stripPy line ≠ [] := stripPy_ne_nil_of_any hanyline
  -- hr fails: the first character after indentation is a digit, not '-'
  have hhr : hrMatch line = false := by
    cases hm : hrMatch line with
    | false => rfl
    | true =>
      exfalso
      obtain ⟨r2, hr2, _⟩ := hrMatch_decomp hm
      rw [hdw] at hr2
      have : c0 = '-' := by
        have := congrArg List.head? hr2
        simpa [str] using this
      rw [this] at hc0
      simp [Char.isDigit] at hc0
  -- heading fails: the line does not start with '#'
  have hhash : line.takeWhile (· == '#') = [] := by
    cases hline : line with
    | nil => rfl
    | cons a as =>
      rw [List.takeWhile_cons]
      have ha : (a == '#') = false := by
        simp only [beq_eq_false_iff_ne, ne_eq]
        intro hae
        subst hae
        cases hsp : isPySpace '#' with
        | true => simp [isPySpace] at hsp
        | false =>
          have hdw2 : line.dropWhile isPySpace = line := by
            rw [hline, List.dropWhile_cons, hsp]
            simp
          rw [hdw2, hline] at hdw
          have : c0 = '#' := by
            have := congrArg List.head? hdw
            simpa using this.symm
          rw [this] at hc0
          simp [Char.isDigit] at hc0
      rw [ha]
      simp
  have hhead : headingParse line = none := by
    unfold headingParse
    rw [hhash]
    simp
  have hbull : bulletParse line = none := by
    cases hbp : bulletParse line with
    | none => rfl
    | some p =>
      exfalso
      obtain ⟨w, t⟩ := p
      obtain ⟨hw, r', hr', _, _⟩ := bulletParse_eq_some hbp
      rw [hw, drop_takeWhile_length, hdw] at hr'
      have : c0 = '-' := by
        have := congrArg List.head? hr'
        simpa using this
      rw [this] at hc0
      simp [Char.isDigit] at hc0
  have hnum : numberParse line
      = some (line.takeWhile isPySpace,
          (line.dropWhile isPySpace).takeWhile Char.isDigit,
          stripPy r) := by
    unfold numberParse
    rw [drop_takeWhile_length]
    have hno : numberParseNoWs (line.dropWhile isPySpace)
        = some ((line.dropWhile isPySpace).takeWhile Char.isDigit, stripPy r) := by
      unfold numberParseNoWs
      rw [if_neg hd, hr]
      simp [hws]
    rw [hno]
    rfl
  have hparse : parseLine line
      = ("number",
          line.takeWhile isPySpace
            ++ (line.dropWhile isPySpace).takeWhile Char.isDigit ++ ['.'],
          stripPy r) := by
    unfold parseLine
    rw [rstripNl_eq_self hnl, if_neg hblank, if_neg (by rw [hhr]; exact Bool.false_ne_true),
      hhead, hbull, hnum]
  refine ⟨by rw [hparse], by rw [hparse], ?_, by decide, ?_⟩
  · intro t
    rw [hparse]
    rfl
  · intro t1 t2
    have hp2 : parseMarkdownLines [str "1. First", str "2. Second"]
        = [("number", str "1.", str "First"), ("number", str "2.", str "Second")] := by
      decide
    rw [hp2]
    rfl

theorem number_prefix_preserved_witness :
    (parseLine (str "  12. Foo")).1 = "number" ∧
    (parseLine (str "  12. Foo")).2.1
      = (str "  12. Foo").takeWhile isPySpace
        ++ ((str "  12. Foo").dropWhile isPySpace).takeWhile Char.isDigit ++ ['.'] ∧
    (∀ t : S, rebuildMarkdown [parseLine (str "  12. Foo")] [t]
      = some [(parseLine (str "  12. Foo")).2.1 ++ str " " ++ t]) ∧
    parseMarkdownLines [str "1. First", str "2. Second"]
      = [("number", str "1.", str "First"), ("number", str "2.", str "Second")] ∧
    (∀ t1 t2 : S,
      rebuildMarkdown (parseMarkdownLines [str "1. First", str "2. Second"]) [t1, t2]
        = some [str "1." ++ str " " ++ t1, str "2." ++ str " " ++ t2]) :=
  number_prefix_preserved (str "  12. Foo") (by decide) (by decide)

/-! ## Inline span parsing (`_INLINE_RE`)

`document_generator._parse_inline_formatting` and
`google_docs_manager._strip_inline_markers` both scan with the same regex

```
  (?P<bold_italic>\*\*\*(.+?)\*\*\*)
  |(?P<bold>\*\*(.+?)\*\*)
  |(?P<italic>\*(.+?)\*)
  |(?P<code>`([^`]+)`)
  |(?P<link>\[([^\]]+)\]\(([^)]+)\))
```

Alternatives are tried in order at each position; scanning proceeds left to
right (leftmost match wins).  `(.+?)` takes the minimal non-empty run of
non-newline characters before the closing delimiter; `([^`]+)`/`([^\]]+)`/
`([^)]+)` take the run before the first closing character, which must be
non-empty. -/

/-- One styled segment (`StyledSegment`): text plus the inline style. -/
structure Seg where
  text : S
  bold : Bool
  italic : Bool
  code : Bool
  linkUrl : Option S
deriving DecidableEq, Repr

def plainSeg (t : S) : Seg := ⟨t, false, false, false, none⟩

/-- `***text***` alternative. -/
def tryBoldItalic (s : S) : Option (Seg × S) :=
  if (str "***").isPrefixOf s then
    (findOcc1 true (str "***") (s.drop 3)).map
      (fun p => (⟨p.1, true, true, false, none⟩, p.2))
  else none

/-- `**text**` alternative. -/
def tryBold (s : S) : Option (Seg × S) :=
  if (str "**").isPrefixOf s then
    (findOcc1 true (str "**") (s.drop 2)).map
      (fun p => (⟨p.1, true, false, false, none⟩, p.2))
  else none

/-- `*text*` alternative. -/
def tryItalic (s : S) : Option (Seg × S) :=
  if (str "*").isPrefixOf s then
    (findOcc1 true (str "*") (s.drop 1)).map
      (fun p => (⟨p.1, false, true, false, none⟩, p.2))
  else none

/-- `` `text` `` alternative. -/
def tryCode (s : S) : Option (Seg × S) :=
  match s with
  | '`' :: rest =>
    (findOcc1 false (str "`") rest).map
      (fun p => (⟨p.1, false, false, true, none⟩, p.2))
  | _ => none

/-- `[label](url)` alternative. -/
def tryLink (s : S) : Option (Seg × S) :=
  match s with
  | '[' :: rest =>
    match findOcc1 false (str "]") rest with
    | some (lab, r1) =>
      match r1 with
      | '(' :: r2 =>
        (findOcc1 false (str ")") r2).map
          (fun p => (⟨lab, false, false, false, some p.1⟩, p.2))
      | _ => none
    | none => none
  | _ => none

/-- Try the five alternatives at the current position, in the regex's
order. -/
def matchInline (s : S) : Option (Seg × S) :=
  (tryBoldItalic s).orElse fun _ =>
    (tryBold s).orElse fun _ =>
      (tryItalic s).orElse fun _ =>
        (tryCode s).orElse fun _ => tryLink s

/-- Pending unmatched characters flushed as one plain segment
(`text[last_end:m.start()]` / the trailing `text[last_end:]`). -/
def flushP (pending : S) : List Seg :=
  if pending.isEmpty then [] else [plainSeg pending]

/-- The scan of `_parse_inline_formatting`: accumulate plain characters
until the regex matches, flush them as one plain segment, emit the styled
segment, continue after the match.  The fuel argument (instantiated with
the input length, which every step strictly decreases) only makes the
recursion structural. -/
def parseInlineAux : Nat → S → S → List Seg
  | 0, pending, _ => flushP pending
  | fuel + 1, pending, s =>
    match matchInline s with
    | some (seg, rest) => flushP pending ++ seg :: parseInlineAux fuel [] rest
    | none =>
      match s with
      | [] => flushP pending
      | c :: cs => parseInlineAux fuel (pending ++ [c]) cs

/-- `document_generator._parse_inline_formatting` (with the final
"no segments found → single plain segment" fallback). -/
def parseInlineFormatting (t : S) : List Seg :=
  if parseInlineAux t.length [] t = [] then [plainSeg t]
  else parseInlineAux t.length [] t

/-- The scan of `google_docs_manager._strip_inline_markers`: build the
cleaned text and the list of `(start, end, style)` ranges in cleaned-text
coordinates.  Styles are recorded as the matched `Seg`. -/
def stripAux : Nat → S → S → S × List (Nat × Nat × Seg)
  | 0, clean, _ => (clean, [])
  | fuel + 1, clean, s =>
    match matchInline s with
    | some (seg, rest) =>
      ((stripAux fuel (clean ++ seg.text) rest).1,
        (clean.length, clean.length + seg.text.length, seg)
          :: (stripAux fuel (clean ++ seg.text) rest).2)
    | none =>
      match s with
      | [] => (clean, [])
      | c :: cs => stripAux fuel (clean ++ [c]) cs

/-- `google_docs_manager._strip_inline_markers`. -/
def stripInlineMarkers (t : S) : S × List (Nat × Nat × Seg) :=
  stripAux t.length [] t

/-- Concatenation of the segments' texts. -/
def concatTexts (segs : List Seg) : S :=
  segs.foldr (fun sg acc => sg.text ++ acc) []

theorem concatTexts_append (a b : List Seg) :
    concatTexts (a ++ b) = concatTexts a ++ concatTexts b := by
  induction a with
  | nil => rfl
  | cons x xs ih =>
    simp only [List.cons_append, concatTexts, List.foldr_cons] at *
    rw [ih]
    simp

theorem concatTexts_flushP (pending : S) : concatTexts (flushP pending) = pending := by
  unfold flushP
  cases hp : pending.isEmpty with
  | true =>
    simp only [if_true]
    rw [List.isEmpty_iff] at hp
    rw [hp]
    rfl
  | false =>
    simp only [Bool.false_eq_true, if_false]
    simp [concatTexts, plainSeg]

theorem parseInlineAux_succ (fuel : Nat) (pending s : S) :
    parseInlineAux (fuel + 1) pending s
      = match matchInline s with
        | some (seg, rest) => flushP pending ++ seg :: parseInlineAux fuel [] rest
        | none =>
          match s with
          | [] => flushP pending
          | c :: cs => parseInlineAux fuel (pending ++ [c]) cs := rfl

theorem stripAux_succ (fuel : Nat) (clean s : S) :
    stripAux (fuel + 1) clean s
      = match matchInline s with
        | some (seg, rest) =>
          ((stripAux fuel (clean ++ seg.text) rest).1,
            (clean.length, clean.length + seg.text.length, seg)
              :: (stripAux fuel (clean ++ seg.text) rest).2)
        | none =>
          match s with
          | [] => (clean, [])
          | c :: cs => stripAux fuel (clean ++ [c]) cs := rfl

theorem stripAux_clean_shift :
    ∀ (fuel : Nat) (clean s : S),
      (stripAux fuel clean s).1 = clean ++ (stripAux fuel [] s).1 := by
  intro fuel
  induction fuel with
  | zero => intro clean s; simp [stripAux]
  | succ fuel ih =>
    intro clean s
    rw [stripAux_succ fuel clean s, stripAux_succ fuel [] s]
    cases hm : matchInline s with
    | some p =>
      obtain ⟨seg, rest⟩ := p
      simp only []
      rw [ih (clean ++ seg.text) rest, ih ([] ++ seg.text) rest]
      simp
    | none =>
      cases s with
      | nil => simp
      | cons c cs =>
        simp only []
        rw [ih (clean ++ [c]) cs, ih ([] ++ [c]) cs]
        simp

theorem parseInlineAux_concat :
    ∀ (fuel : Nat) (pending s : S),
      concatTexts (parseInlineAux fuel pending s) = pending ++ (stripAux fuel [] s).1 := by
  intro fuel
  induction fuel with
  | zero =>
    intro pending s
    simp [parseInlineAux, stripAux, concatTexts_flushP]
  | succ fuel ih =>
    intro pending s
    rw [parseInlineAux_succ fuel pending s, stripAux_succ fuel [] s]
    cases hm : matchInline s with
    | some p =>
      obtain ⟨seg, rest⟩ := p
      simp only []
      rw [concatTexts_append]
      have h2 : concatTexts (seg :: parseInlineAux fuel [] rest)
          = seg.text ++ concatTexts (parseInlineAux fuel [] rest) := rfl
      rw [h2, concatTexts_flushP, ih [] rest]
      rw [stripAux_clean_shift fuel ([] ++ seg.text) rest]
      simp
    | none =>
      cases s with
      | nil =>
        simp only []
        rw [concatTexts_flushP]
        simp
      | cons c cs =>
        simp only []
        rw [ih (pending ++ [c]) cs]
        rw [stripAux_clean_shift fuel ([] ++ [c]) cs]
        simp

theorem parseInlineAux_ne_nil_of_pending :
    ∀ (fuel : Nat) (pending s : S), pending ≠ [] →
      parseInlineAux fuel pending s ≠ [] := by
  intro fuel
  induction fuel with
  | zero =>
    intro pending s hp
    simp [parseInlineAux, flushP, List.isEmpty_iff, hp]
  | succ fuel ih =>
    intro pending s hp
    rw [parseInlineAux_succ fuel pending s]
    cases hm : matchInline s with
    | some p =>
      obtain ⟨seg, rest⟩ := p
      simp only []
      simp
    | none =>
      cases s with
      | nil => simp [flushP, List.isEmpty_iff, hp]
      | cons c cs =>
        simp only []
        exact ih _ _ (by simp)

theorem parseInlineAux_ne_nil_of_ne_nil {t : S} (h : t ≠ []) :
    parseInlineAux t.length [] t ≠ [] := by
  cases t with
  | nil => exact absurd rfl h
  | cons c cs =>
    rw [show (c :: cs : S).length = cs.length + 1 from rfl,
      parseInlineAux_succ cs.length [] (c :: cs)]
    cases hm : matchInline (c :: cs) with
    | some p =>
      obtain ⟨seg, rest⟩ := p
      simp only []
      simp
    | none =>
      simp only []
      exact parseInlineAux_ne_nil_of_pending cs.length ([] ++ [c]) cs (by simp)

/-- C2: for every input string, `_parse_inline_formatting` returns a
non-empty ordered list of segments whose `text` fields concatenate to
exactly the input with the matched inline markers stripped (the `clean`
text computed by `google_docs_manager._strip_inline_markers`, an
independent implementation of the same stripping); segments are therefore
non-overlapping and gap-free.  The function is total (never raises), and an
unterminated marker is kept as literal text, e.g. on `a *b`. -/
theorem inline_segments_cover (t : S) :
    parseInlineFormatting t ≠ [] ∧
    concatTexts (parseInlineFormatting t) = (stripInlineMarkers t).1 ∧
    parseInlineFormatting (str "a *b") = [plainSeg (str "a *b")] := by
  refine ⟨?_, ?_, by decide⟩
  · unfold parseInlineFormatting
    by_cases h : parseInlineAux t.length [] t = []
    · rw [if_pos h]
      simp
    · rw [if_neg h]
      exact h
  · unfold parseInlineFormatting stripInlineMarkers
    by_cases h : parseInlineAux t.length [] t = []
    · rw [if_pos h]
      have ht : t = [] := by
        by_contra hne
        exact parseInlineAux_ne_nil_of_ne_nil hne h
      subst ht
      rfl
    · rw [if_neg h]
      exact parseInlineAux_concat t.length [] t

/-! ## The page-layout generator (`document_generator.convert_markdown_to_docx`)

The conversion loop is modelled as a step function over an explicit state;
paragraph insertions become `DocEvent`s (spacing adjustments to previously
inserted paragraphs — `reduce_spacing_before_heading`,
`reduce_spacing_before_list`, `ensure_spacing_after_list` and the
consecutive-heading compression — only mutate formatting attributes of
already-emitted paragraphs and are not part of the event stream).  Input
lines come from `splitlines()` and contain no newline characters. -/

/-- `RTL_LANGS = {"ar", "he", "fa", "ur"}`. -/
def isRtlLang (lang : String) : Bool :=
  lang == "ar" || lang == "he" || lang == "fa" || lang == "ur"

/-- `CODE_FENCE_RE = ^``` ` matched against `line.strip()`. -/
def isFence (l : S) : Bool := (str "```").isPrefixOf (stripPy l)

/-- `TABLE_ROW_RE = ^\|(.+)\|\s*$`. -/
def tableRowMatch (l : S) : Bool :=
  match rstripPy l with
  | c :: rest => c == '|' && decide (2 ≤ rest.length) && (rest.getLast? == some '|')
  | [] => false

/-- `TABLE_SEP_RE = ^\|[\s\-:|]+\|\s*$`. -/
def tableSepMatch (l : S) : Bool :=
  match rstripPy l with
  | c :: rest =>
    c == '|' && decide (2 ≤ rest.length) && (rest.getLast? == some '|')
      && rest.dropLast.all (fun c => isPySpace c || c == '-' || c == ':' || c == '|')
  | [] => false

/-- Python `row.strip("|")`. -/
def stripPipes (l : S) : S := dropTrailing (· == '|') (l.dropWhile (· == '|'))

/-- `[c.strip() for c in row.strip("|").split("|")]`. -/
def cellsOf (row : S) : List S := (splitAll (str "|") (stripPipes row)).map stripPy

/-- `BLOCKQUOTE_RE = ^>\s?(.*)`: returns the group. -/
def bqParse (l : S) : Option S :=
  match l with
  | '>' :: r =>
    some (match r with
      | c :: r2 => if isPySpace c then r2 else c :: r2
      | [] => [])
  | _ => none

/-- `^([a-zA-Z])([\)\.])\s+(.*\S)\s*$`: returns (label, text). -/
def alphaParse (l : S) : Option (S × S) :=
  match l with
  | c1 :: c2 :: r =>
    if (('a' ≤ c1 && c1 ≤ 'z') || ('A' ≤ c1 && c1 ≤ 'Z'))
        && (c2 == ')' || c2 == '.') && wsThenText r
    then some ([c1, c2], stripPy r) else none
  | _ => none

/-- Width of the leading run of spaces/tabs, tabs expanded to 4 spaces
(`len(raw[:leading].replace("\t", " " * 4))`). -/
def indentOf (l : S) : Nat :=
  (l.takeWhile (fun c => c == ' ' || c == '\t')).foldr
    (fun c acc => (if c == '\t' then 4 else 1) + acc) 0

/-- `level = min(indent // BULLET_INDENT_SPACES, 2)` with
`BULLET_INDENT_SPACES = 2`. -/
def listLevelOf (l : S) : Nat := min (indentOf l / 2) 2

/-- `s = raw.lstrip(" \t").strip()`. -/
def listTrim (l : S) : S := stripPy (l.dropWhile (fun c => c == ' ' || c == '\t'))

/-- `[p.strip() for p in content.split(" - ") if p.strip()]`. -/
def bulletParts (content : S) : List S :=
  ((splitAll (str " - ") content).map stripPy).filter (fun p => !p.isEmpty)

/-- `if part.startswith("- "): part = part[2:].strip()`. -/
def bulletItemText (part : S) : S :=
  if (str "- ").isPrefixOf part then stripPy (part.drop 2) else part

inductive ElemType
  | normal
  | list
  | bulletCont
deriving DecidableEq, Repr

inductive DocEvent
  | title (text : S)
  | heading (rank : Nat) (text : S)
  | body (text : S)
  | bodyCont (level : Nat) (text : S)
  | blockquote (text : S)
  | codeLine (text : S)
  | bullet (level : Nat) (text : S)
  | numbered (level : Nat) (text : S)
  | alphaItem (label : S) (level : Nat) (text : S)
  | table (header : List S) (rows : List (List S))
deriving DecidableEq, Repr

/-- The bullet branch shared by `convert_markdown_to_docx` and
`make_notes.md_to_docx`: split sibling bullets on the literal `" - "`
separator, dropping empty parts. -/
def bulletEvents (lvl : Nat) (content : S) : List DocEvent :=
  if containsSub (str " - ") content then
    (bulletParts content).map (fun part => DocEvent.bullet lvl (bulletItemText part))
  else [DocEvent.bullet lvl content]

structure GenState where
  titleWritten : Bool
  lastWasHeading : Bool
  lastElementType : ElemType
  lastListLevel : Nat
  buffer : List S
  inCode : Bool
  codeLines : List S
  tableRows : List S
  events : List DocEvent
deriving DecidableEq, Repr

def initGen : GenState :=
  ⟨false, false, ElemType.normal, 0, [], false, [], [], []⟩

/-- `flush_buffer`: join the buffered lines (each stripped) with single
spaces, strip, and emit one paragraph — continuation-styled when the
buffer was accumulated in the `BULLET_CONT` sub-state. -/
def flushBuf (s : GenState) : GenState :=
  if (stripPy (List.intercalate (str " ") (s.buffer.map stripPy))).isEmpty then
    { s with buffer := [] }
  else
    { s with
      buffer := []
      events := s.events ++
        [if s.lastElementType = ElemType.bulletCont then
          DocEvent.bodyCont s.lastListLevel
            (stripPy (List.intercalate (str " ") (s.buffer.map stripPy)))
        else
          DocEvent.body (stripPy (List.intercalate (str " ") (s.buffer.map stripPy)))] }

/-- `flush_code_block`: one `codeLine` event per captured line, verbatim. -/
def flushCode (s : GenState) : GenState :=
  { s with events := s.events ++ s.codeLines.map DocEvent.codeLine
           codeLines := [] }

/-- `flush_table`: fewer than two rows fall back to body-text buffering;
otherwise first row is the header, separator rows are dropped, and a table
is emitted when any data rows remain. -/
def flushTable (s : GenState) : GenState :=
  if s.tableRows.length < 2 then
    { s with buffer := s.buffer ++ s.tableRows
             tableRows := [] }
  else
    { s with
      tableRows := []
      events := s.events ++
        (if ((s.tableRows.tail.filter (fun r => !tableSepMatch r)).map cellsOf).isEmpty
         then []
         else [DocEvent.table (cellsOf (s.tableRows.headD []))
            ((s.tableRows.tail.filter (fun r => !tableSepMatch r)).map cellsOf)]) }

/-- Table-row accumulation branch. -/
def stepTableRow (s : GenState) (line : S) : GenState :=
  if s.tableRows.isEmpty then
    { flushBuf s with tableRows := (flushBuf s).tableRows ++ [line]
                      lastWasHeading := false }
  else
    { s with tableRows := s.tableRows ++ [line]
             lastWasHeading := false }

/-- List detection and the fallthrough body accumulation. -/
def stepGenList (s : GenState) (line : S) : GenState :=
  match numberParseNoWs (listTrim line) with
  | some (_, t) =>
    { flushBuf s with
      events := (flushBuf s).events ++ [DocEvent.numbered (listLevelOf line) (stripPy t)]
      lastElementType := ElemType.list
      lastListLevel := listLevelOf line }
  | none =>
    match alphaParse (listTrim line) with
    | some (lab, t) =>
      { flushBuf s with
        events := (flushBuf s).events
          ++ [DocEvent.alphaItem lab (listLevelOf line) (stripPy t)]
        lastElementType := ElemType.list
        lastListLevel := listLevelOf line }
    | none =>
      if (str "- ").isPrefixOf (listTrim line) then
        { flushBuf s with
          events := (flushBuf s).events
            ++ bulletEvents (listLevelOf line) (stripPy ((listTrim line).drop 2))
          lastElementType := ElemType.list
          lastListLevel := listLevelOf line }
      else if (s.lastElementType = ElemType.list ∨ s.lastElementType = ElemType.bulletCont)
          ∧ ((str "  ").isPrefixOf line = true ∨ (str "\t").isPrefixOf line = true) then
        { s with lastElementType := ElemType.bulletCont
                 buffer := s.buffer ++ [line] }
      else if s.lastElementType = ElemType.bulletCont then
        { flushBuf s with lastElementType := ElemType.normal
                          buffer := [line] }
      else
        { s with lastElementType := ElemType.normal
                 buffer := s.buffer ++ [line] }

/-- The blank/blockquote/hr/list branches (reached after the heading check
failed, which also resets `last_was_heading`). -/
def stepGenBody (s : GenState) (line : S) : GenState :=
  if (stripPy line).isEmpty then
    { flushBuf s with lastElementType := ElemType.normal }
  else
    match bqParse line with
    | some q =>
      { flushBuf s with events := (flushBuf s).events ++ [DocEvent.blockquote q] }
    | none =>
      if hrDocgen line then { flushBuf s with buffer := [line] }
      else stepGenList s line

/-- Heading check onwards (reached after fence/code/table handling). -/
def stepGenRest (s : GenState) (line : S) : GenState :=
  match headingParse line with
  | some (h, t) =>
    if h.length = 1 ∧ (flushBuf s).titleWritten = false then
      { flushBuf s with
        events := (flushBuf s).events ++ [DocEvent.title (stripPy t)]
        titleWritten := true
        lastWasHeading := true }
    else
      { flushBuf s with
        events := (flushBuf s).events
          ++ [DocEvent.heading (min (max 1 (h.length - 1)) 9) (stripPy t)]
        lastWasHeading := true }
  | none => stepGenBody { s with lastWasHeading := false } line

/-- One iteration of the `convert_markdown_to_docx` line loop. -/
def stepGen (s : GenState) (line : S) : GenState :=
  if isFence line then
    (if s.inCode then { flushCode s with inCode := false }
     else { flushBuf s with inCode := true })
  else if s.inCode then
    { s with codeLines := s.codeLines ++ [line] }
  else if tableRowMatch line then stepTableRow s line
  else if s.tableRows.isEmpty then stepGenRest s line
  else stepGenRest (flushTable s) line

/-- The trailing flushes after the loop. -/
def finalizeGen (s : GenState) : GenState :=
  flushBuf (if (if s.inCode then flushCode s else s).tableRows.isEmpty
    then (if s.inCode then flushCode s else s)
    else flushTable (if s.inCode then flushCode s else s))

/-- `convert_markdown_to_docx`, as its stream of emitted paragraphs. -/
def convertEvents (lines : List S) : List DocEvent :=
  (finalizeGen (lines.foldl stepGen initGen)).events

/-! ## `make_notes.md_to_docx` -/

structure NState where
  titleWritten : Bool
  buffer : List S
  events : List DocEvent
deriving DecidableEq, Repr

def initN : NState := ⟨false, [], []⟩

def flushN (s : NState) : NState :=
  if (stripPy (List.intercalate (str " ") (s.buffer.map stripPy))).isEmpty then
    { s with buffer := [] }
  else
    { s with
      buffer := []
      events := s.events
        ++ [DocEvent.body (stripPy (List.intercalate (str " ") (s.buffer.map stripPy)))] }

/-- One iteration of the `md_to_docx` line loop. -/
def stepNotes (s : NState) (line : S) : NState :=
  match headingParse line with
  | some (h, t) =>
    if h.length = 1 ∧ (flushN s).titleWritten = false then
      { flushN s with
        events := (flushN s).events ++ [DocEvent.title (stripPy t)]
        titleWritten := true }
    else
      { flushN s with
        events := (flushN s).events
          ++ [DocEvent.heading (min (max 1 (h.length - 1)) 9) (stripPy t)] }
  | none =>
    if (stripPy line).isEmpty then flushN s
    else
      match numberParseNoWs (listTrim line) with
      | some (_, t) =>
        { flushN s with
          events := (flushN s).events
            ++ [DocEvent.numbered (listLevelOf line) (stripPy t)] }
      | none =>
        if (str "- ").isPrefixOf (listTrim line) then
          { flushN s with
            events := (flushN s).events
              ++ bulletEvents (listLevelOf line) (stripPy ((listTrim line).drop 2)) }
        else { s with buffer := s.buffer ++ [line] }

/-- `md_to_docx`, as its stream of emitted paragraphs. -/
def notesEvents (lines : List S) : List DocEvent :=
  (flushN (lines.foldl stepNotes initN)).events

/-! ## Paragraph formatting (`document_generator` insert helpers)

Each `insert_*` helper of `document_generator.py` is modelled as building a
`Para` record of the formatting attributes it sets, in source order (later
assignments overwrite earlier ones).  Indents are recorded in tenths of a
centimetre, spacing in points, line spacing in tenths. -/

inductive Align2
  | left
  | right
  | center
  | justify
deriving DecidableEq, Repr

inductive BorderSide
  | left
  | right
deriving DecidableEq, Repr

structure Para where
  alignment : Option Align2
  bidi : Bool
  runsRtl : Bool
  leftIndent : Option Int
  rightIndent : Option Int
  firstLineIndent : Option Int
  borderSide : Option BorderSide
  shaded : Bool
  spaceBeforePt : Option Int
  spaceAfterPt : Option Int
  lineSpacing : Option Nat
deriving DecidableEq, Repr

def defaultPara : Para :=
  ⟨none, false, false, none, none, none, none, false, none, none, none⟩

/-- `_set_paragraph_rtl`: `w:bidi = 1` and `w:jc = right`. -/
def setParagraphRtl (p : Para) : Para :=
  { p with bidi := true
           alignment := some Align2.right }

/-- `_apply_rtl_if_needed`: paragraph bidi + RIGHT alignment + run-level
RTL flags, only for RTL languages. -/
def applyRtlIfNeeded (lang : String) (p : Para) : Para :=
  if isRtlLang lang then
    { setParagraphRtl p with
      alignment := some Align2.right
      runsRtl := true }
  else p

/-- `format_body_paragraph`. -/
def formatBodyParagraph (lang : String) (p : Para) : Para :=
  applyRtlIfNeeded lang
    { p with
      alignment := some (if isRtlLang lang then Align2.right else Align2.justify)
      lineSpacing := some (if isRtlLang lang then 13 else 12)
      spaceBeforePt := some 0
      spaceAfterPt := some (if isRtlLang lang then 8 else 6) }

/-- `insert_body_paragraph`. -/
def insertBodyPara (lang : String) : Para := formatBodyParagraph lang defaultPara

/-- `insert_code_block_line` (delegates to `format_body_paragraph`). -/
def insertCodeLinePara (lang : String) : Para := formatBodyParagraph lang defaultPara

/-- `format_heading_paragraph`. -/
def formatHeadingParagraph (level : Nat) (lang : String) (p : Para) : Para :=
  applyRtlIfNeeded lang
    (if level = 1 then
      { p with
        alignment := some (if isRtlLang lang then Align2.right else Align2.left)
        spaceBeforePt := some 28
        spaceAfterPt := some 6 }
    else if level = 2 then
      { p with
        alignment := some (if isRtlLang lang then Align2.right else Align2.left)
        spaceBeforePt := some 20
        spaceAfterPt := some 5 }
    else
      { p with
        alignment := some (if isRtlLang lang then Align2.right else Align2.left)
        spaceBeforePt := some 16
        spaceAfterPt := some 6 })

/-- `insert_heading`: Word level = `min(max(1, md_level - 1), 9)`. -/
def insertHeadingPara (lang : String) (mdLevel : Nat) : Para :=
  formatHeadingParagraph (min (max 1 (mdLevel - 1)) 9) lang defaultPara

/-- `insert_document_title`: centered, 26pt, 36pt space after. -/
def insertTitlePara (lang : String) : Para :=
  applyRtlIfNeeded lang
    { defaultPara with
      alignment := some Align2.center
      spaceAfterPt := some 36 }

/-- `_apply_list_indentation`: base 1.5cm + level·0.5cm with a 0.4cm
hanging indent, mirrored to the right side for RTL languages. -/
def applyListIndentation (lang : String) (level : Nat) (p : Para) : Para :=
  if isRtlLang lang then
    { p with
      leftIndent := some 0
      rightIndent := some (15 + 5 * (level : Int))
      firstLineIndent := some (-4) }
  else
    { p with
      rightIndent := some 0
      leftIndent := some (15 + 5 * (level : Int))
      firstLineIndent := some (-4) }

/-- `insert_bullet_item`. -/
def insertBulletPara (lang : String) (level : Nat) : Para :=
  applyRtlIfNeeded lang
    (applyListIndentation lang level
      { (if isRtlLang lang then setParagraphRtl defaultPara
         else { defaultPara with alignment := some Align2.left }) with
        lineSpacing := some (if isRtlLang lang then 13 else 12)
        spaceBeforePt := some 0
        spaceAfterPt := some 6 })

/-- `insert_numbered_item`. -/
def insertNumberedPara (lang : String) (level : Nat) : Para :=
  applyRtlIfNeeded lang
    (applyListIndentation lang level
      { defaultPara with
        alignment := some (if isRtlLang lang then Align2.right else Align2.left)
        lineSpacing := some (if isRtlLang lang then 13 else 12)
        spaceBeforePt := some 0
        spaceAfterPt := some 6 })

/-- `insert_alphabetic_item`. -/
def insertAlphaPara (lang : String) (level : Nat) : Para :=
  applyRtlIfNeeded lang
    (applyListIndentation lang level
      { defaultPara with
        alignment := some Align2.left
        lineSpacing := some (if isRtlLang lang then 13 else 12)
        spaceBeforePt := some 0
        spaceAfterPt := some 6 })

/-- `insert_blockquote`: alignment by direction, but always a 1.5cm LEFT
indent, a LEFT border and shading. -/
def insertBlockquotePara (lang : String) : Para :=
  applyRtlIfNeeded lang
    { defaultPara with
      alignment := some (if isRtlLang lang then Align2.right else Align2.left)
      leftIndent := some 15
      spaceBeforePt := some 4
      spaceAfterPt := some 4
      lineSpacing := some 12
      borderSide := some BorderSide.left
      shaded := true }

/-- A paragraph is fully right-to-left: right-aligned, paragraph bidi flag,
run-level RTL flags. -/
abbrev rtlFacts (p : Para) : Prop :=
  p.alignment = some Align2.right ∧ p.bidi = true ∧ p.runsRtl = true

/-- A paragraph carries no RTL flags and has the given alignment. -/
abbrev ltrFacts (p : Para) (a : Align2) : Prop :=
  p.alignment = some a ∧ p.bidi = false ∧ p.runsRtl = false

theorem formatHeadingParagraph_ar (level : Nat) :
    rtlFacts (formatHeadingParagraph level "ar" defaultPara) := by
  unfold formatHeadingParagraph
  split
  · decide
  · split
    · decide
    · decide

theorem formatHeadingParagraph_es (level : Nat) :
    ltrFacts (formatHeadingParagraph level "es" defaultPara) Align2.left := by
  unfold formatHeadingParagraph
  split
  · decide
  · split
    · decide
    · decide

/-- C8 counterexample: for `lang='ar'` the blockquote paragraph is NOT
mirrored — it keeps the LEFT border, a LEFT indent of 1.5 cm and no right
indent — and for `lang='es'` the title paragraph is centered, not
left-aligned or justified.  This contradicts the claim's "mirrored
indentation (… blockquotes right-bordered)" for `ar` and its
"left-aligned or justified" for `es`. -/
theorem rtl_blockquote_counterexample :
    (insertBlockquotePara "ar").borderSide = some BorderSide.left ∧
    (insertBlockquotePara "ar").borderSide ≠ some BorderSide.right ∧
    (insertBlockquotePara "ar").leftIndent = some 15 ∧
    (insertBlockquotePara "ar").rightIndent = none ∧
    (insertTitlePara "es").alignment = some Align2.center := by
  decide

/-- C8 (amended): for `lang='ar'` every emitted paragraph kind is
right-aligned with paragraph- and run-level RTL flags, and list items
(bullet, numbered, alphabetic) have their indentation mirrored to the
right side with the hanging indent; blockquotes, however, keep the left
border and left indent.  For `lang='es'` no paragraph carries RTL flags:
body and code paragraphs are justified, headings, lists and blockquotes
left-aligned, and the title centered; list indentation stays on the left. -/
theorem rtl_layout_amended (lvl mdLevel : Nat) :
    rtlFacts (insertTitlePara "ar") ∧
    rtlFacts (insertHeadingPara "ar" mdLevel) ∧
    rtlFacts (insertBodyPara "ar") ∧
    rtlFacts (insertBulletPara "ar" lvl) ∧
    rtlFacts (insertNumberedPara "ar" lvl) ∧
    rtlFacts (insertAlphaPara "ar" lvl) ∧
    rtlFacts (insertBlockquotePara "ar") ∧
    rtlFacts (insertCodeLinePara "ar") ∧
    (insertBulletPara "ar" lvl).rightIndent = some (15 + 5 * (lvl : Int)) ∧
    (insertBulletPara "ar" lvl).leftIndent = some 0 ∧
    (insertBulletPara "ar" lvl).firstLineIndent = some (-4) ∧
    (insertNumberedPara "ar" lvl).rightIndent = some (15 + 5 * (lvl : Int)) ∧
    (insertAlphaPara "ar" lvl).rightIndent = some (15 + 5 * (lvl : Int)) ∧
    (insertBlockquotePara "ar").borderSide = some BorderSide.left ∧
    (insertBlockquotePara "ar").leftIndent = some 15 ∧
    (insertBlockquotePara "ar").rightIndent = none ∧
    ltrFacts (insertTitlePara "es") Align2.center ∧
    ltrFacts (insertHeadingPara "es" mdLevel) Align2.left ∧
    ltrFacts (insertBodyPara "es") Align2.justify ∧
    ltrFacts (insertBulletPara "es" lvl) Align2.left ∧
    ltrFacts (insertNumberedPara "es" lvl) Align2.left ∧
    ltrFacts (insertAlphaPara "es" lvl) Align2.left ∧
    ltrFacts (insertBlockquotePara "es") Align2.left ∧
    ltrFacts (insertCodeLinePara "es") Align2.justify ∧
    (insertBulletPara "es" lvl).leftIndent = some (15 + 5 * (lvl : Int)) ∧
    (insertBulletPara "es" lvl).rightIndent = some 0 ∧
    (insertBulletPara "es" lvl).firstLineIndent = some (-4) := by
  refine ⟨by decide, formatHeadingParagraph_ar _, by decide, ⟨rfl, rfl, rfl⟩,
    ⟨rfl, rfl, rfl⟩, ⟨rfl, rfl, rfl⟩, by decide, by decide,
    rfl, rfl, rfl, rfl, rfl, by decide, by decide, by decide,
    by decide, formatHeadingParagraph_es _, by decide, ⟨rfl, rfl, rfl⟩,
    ⟨rfl, rfl, rfl⟩, ⟨rfl, rfl, rfl⟩, by decide, by decide,
    rfl, rfl, rfl⟩

/-! ## The range-based emitter (`google_docs_manager.upload_markdown_content`)

The first loop of `upload_markdown_content` builds `full_text`, `formats`
(block `[start, end)` ranges tagged with type/level/consecutive-flag) and
`inline_formats`; the request list is then assembled in phases:
`insertText`, the full-range base text/paragraph styles, the per-block
operations in `formats` order, and the inline text styles.  Style payloads
are condensed into tags carrying the fields the claims are about.

Python detail modelled faithfully: inside a code block the local variable
`start` is read but never assigned, so it holds the stale value from the
last non-code line — and if no such line exists yet, the function raises
`NameError` (modelled as `none`). -/

inductive FKind
  | headingF
  | blockquoteF
  | codeBlockF
  | bulletF
  | numberF
  | bulletContF
  | normalF
deriving DecidableEq, Repr

structure Format where
  start : Nat
  stop : Nat
  kind : FKind
  level : Nat
  consec : Bool
deriving DecidableEq, Repr

structure UState where
  fullText : S
  formats : List Format
  inlines : List (Nat × Nat × Seg)
  currentOffset : Nat
  inCode : Bool
  prevType : Option FKind
  startVar : Option Nat
deriving DecidableEq, Repr

def initU : UState := ⟨[], [], [], 0, false, none, none⟩

/-- The shared tail of every non-code, non-blank branch: append the cleaned
content plus newline to `full_text`, record the block's range starting at
`1 + current_offset`, shift the inline ranges into document coordinates,
advance the offset and set `prev_type`. -/
def pushBlock (st : UState) (k : FKind) (lvl : Nat) (consec : Bool)
    (clean : S) (fmts : List (Nat × Nat × Seg)) : UState :=
  { fullText := st.fullText ++ clean ++ ['\n']
    formats := st.formats
      ++ [⟨1 + st.currentOffset, 1 + st.currentOffset + (clean ++ ['\n']).length, k, lvl, consec⟩]
    inlines := st.inlines
      ++ fmts.map (fun r => (1 + st.currentOffset + r.1, 1 + st.currentOffset + r.2.1, r.2.2))
    currentOffset := st.currentOffset + (clean ++ ['\n']).length
    inCode := st.inCode
    prevType := some k
    startVar := some (1 + st.currentOffset) }

/-- The branches after the code-block handling (`line` already
right-stripped and non-empty). -/
def stepURest (st : UState) (l : S) : UState :=
  if l.head? = some '#' then
    pushBlock st FKind.headingF ((splitAll (str " ") l).headD []).length
      (st.prevType = some FKind.headingF)
      (stripInlineMarkers (List.intercalate (str " ") (splitAll (str " ") l).tail)).1
      (stripInlineMarkers (List.intercalate (str " ") (splitAll (str " ") l).tail)).2
  else if l.head? = some '>' then
    pushBlock st FKind.blockquoteF 0 false
      (stripInlineMarkers (stripPy (l.dropWhile (· == '>')))).1
      (stripInlineMarkers (stripPy (l.dropWhile (· == '>')))).2
  else if (str "---").isPrefixOf l = true ∨ (str "***").isPrefixOf l = true then
    pushBlock st FKind.normalF 0 false (str "---") []
  else if (str "- ").isPrefixOf l then
    pushBlock st FKind.bulletF 0 false
      (stripInlineMarkers (l.drop 2)).1 (stripInlineMarkers (l.drop 2)).2
  else if (match l.head? with | some c => c.isDigit | none => false) = true
      ∧ containsSub (str ". ") l = true then
    pushBlock st FKind.numberF 0 false
      (stripInlineMarkers (splitOnce (str ". ") l).2).1
      (stripInlineMarkers (splitOnce (str ". ") l).2).2
  else if ((str "  ").isPrefixOf l = true ∨ (str "\t").isPrefixOf l = true)
      ∧ (st.prevType = some FKind.bulletF ∨ st.prevType = some FKind.numberF) then
    pushBlock st FKind.bulletContF 0 false
      (stripInlineMarkers (stripPy l)).1 (stripInlineMarkers (stripPy l)).2
  else if st.prevType = some FKind.bulletContF
      ∧ ((str "  ").isPrefixOf l = true ∨ (str "\t").isPrefixOf l = true) then
    pushBlock st FKind.bulletContF 0 false
      (stripInlineMarkers (stripPy l)).1 (stripInlineMarkers (stripPy l)).2
  else
    pushBlock st FKind.normalF 0 false
      (stripInlineMarkers (stripPy l)).1 (stripInlineMarkers (stripPy l)).2

/-- One iteration of the first loop of `upload_markdown_content`;
`none` models the `NameError` on a code-block line before any `start`
assignment. -/
def stepU (st : UState) (line : S) : Option UState :=
  if (str "```").isPrefixOf (stripPy line) then
    some { st with inCode := !st.inCode }
  else if st.inCode then
    match st.startVar with
    | none => none
    | some sv =>
      some { st with
        fullText := st.fullText ++ line ++ ['\n']
        formats := st.formats ++ [⟨sv, sv + (line ++ ['\n']).length, FKind.codeBlockF, 0, false⟩]
        currentOffset := st.currentOffset + (line ++ ['\n']).length
        prevType := some FKind.codeBlockF }
  else if (rstripPy line).isEmpty then some st
  else some (stepURest st (rstripPy line))

def runU : List S → UState → Option UState
  | [], st => some st
  | l :: ls, st =>
    match stepU st l with
    | none => none
    | some st' => runU ls st'

def buildU (lines : List S) : Option UState := runU lines initU

/-! ### Request assembly -/

inductive NamedStyle2
  | titleStyle
  | headingN (k : Nat)
deriving DecidableEq, Repr

inductive PTag
  | baseStyle (rtl : Bool)
  | headingStyle (named : NamedStyle2) (consec : Bool) (rtl : Bool)
  | blockquoteStyle
  | bulletContIndent
  | listRtl
deriving DecidableEq, Repr

inductive TTag
  | baseFont (font : String)
  | headingFont (font : String)
  | blockquoteText
  | inlineStyle (sty : Seg)
deriving DecidableEq, Repr

inductive GRequest
  | insertText (text : S)
  | updateTextStyle (start stop : Nat) (tag : TTag)
  | updateParagraphStyle (start stop : Nat) (tag : PTag)
  | createParagraphBullets (start stop : Nat) (preset : String)
deriving DecidableEq, Repr

def fontFor (lang : String) : String :=
  if lang = "zh" then "Noto Serif SC"
  else if lang = "ar" then "Amiri"
  else "Times New Roman"

/-- `'TITLE' if level == 1 else f'HEADING_{min(level - 1, 6)}'`. -/
def namedFor (level : Nat) : NamedStyle2 :=
  if level = 1 then NamedStyle2.titleStyle else NamedStyle2.headingN (min (level - 1) 6)

/-- The operations the block-style loop emits for one `formats` entry. -/
def blockOpsFor (rtl : Bool) (font : String) (f : Format) : List GRequest :=
  (match f.kind with
   | FKind.headingF =>
     [GRequest.updateParagraphStyle f.start f.stop
        (PTag.headingStyle (namedFor f.level) f.consec rtl),
      GRequest.updateTextStyle f.start f.stop (TTag.headingFont font)]
   | FKind.blockquoteF =>
     [GRequest.updateParagraphStyle f.start f.stop PTag.blockquoteStyle,
      GRequest.updateTextStyle f.start f.stop TTag.blockquoteText]
   | FKind.codeBlockF => []
   | FKind.bulletContF =>
     [GRequest.updateParagraphStyle f.start f.stop PTag.bulletContIndent]
   | FKind.bulletF =>
     [GRequest.createParagraphBullets f.start f.stop "BULLET_DISC_CIRCLE_SQUARE"]
   | FKind.numberF =>
     [GRequest.createParagraphBullets f.start f.stop "NUMBERED_DECIMAL_ALPHA_ROMAN"]
   | FKind.normalF => [])
  ++ (if rtl ∧ (f.kind = FKind.bulletF ∨ f.kind = FKind.numberF)
      then [GRequest.updateParagraphStyle f.start f.stop PTag.listRtl] else [])

def baseOps (lang : String) (totalLen : Nat) : List GRequest :=
  [GRequest.updateTextStyle 1 (1 + totalLen) (TTag.baseFont (fontFor lang)),
   GRequest.updateParagraphStyle 1 (1 + totalLen) (PTag.baseStyle (isRtlLang lang = true))]

def inlineOps (ils : List (Nat × Nat × Seg)) : List GRequest :=
  ils.map (fun r => GRequest.updateTextStyle r.1 r.2.1 (TTag.inlineStyle r.2.2))

/-- The assembled request list, in the code's append order: `insertText`,
full-document base styles, per-block styles, inline styles. -/
def buildRequests (st : UState) (lang : String) : List GRequest :=
  GRequest.insertText st.fullText
    :: (baseOps lang st.fullText.length
      ++ (st.formats.map (blockOpsFor (isRtlLang lang) (fontFor lang))).flatten
      ++ inlineOps st.inlines)

/-! ## Invariants of the range-based emitter -/

/-- The per-block paragraph operations of the block-style loop: the ranges
of the `updateParagraphStyle` requests. -/
def paraRange : GRequest → Option (Nat × Nat)
  | GRequest.updateParagraphStyle s e _ => some (s, e)
  | _ => none

/-- Non-overlap of two `[start, end)` ranges. -/
def rangesDisjoint (a b : Nat × Nat) : Prop := a.2 ≤ b.1 ∨ b.2 ≤ a.1

/-- The `formats` entries that contribute an `updateParagraphStyle`
operation. -/
def emitsPara (rtl : Bool) (f : Format) : Bool :=
  f.kind == FKind.headingF || f.kind == FKind.blockquoteF || f.kind == FKind.bulletContF
    || (rtl && (f.kind == FKind.bulletF || f.kind == FKind.numberF))

/-- The invariant maintained by the first loop: the non-code block ranges
are chained (each ends before the next starts) inside `[1, 1 + offset)`,
and the text length tracks the offset. -/
def UInv (st : UState) : Prop :=
  (st.formats.filter (fun f => f.kind ≠ FKind.codeBlockF)).Pairwise
    (fun a b => a.stop ≤ b.start) ∧
  (∀ f ∈ st.formats.filter (fun f => f.kind ≠ FKind.codeBlockF),
    1 ≤ f.start ∧ f.start < f.stop ∧ f.stop ≤ 1 + st.currentOffset) ∧
  st.fullText.length = st.currentOffset

theorem UInv_init : UInv initU := by
  refine ⟨List.Pairwise.nil, ?_, rfl⟩
  intro f hf
  simp [initU] at hf

theorem UInv_pushBlock {st : UState} (hinv : UInv st) (k : FKind) (lvl : Nat)
    (consec : Bool) (clean : S) (fmts : List (Nat × Nat × Seg)) :
    UInv (pushBlock st k lvl consec clean fmts) := by
  obtain ⟨hpw, hbd, hlen⟩ := hinv
  refine ⟨?_, ?_, ?_⟩
  · show (((st.formats
        ++ [(⟨1 + st.currentOffset, 1 + st.currentOffset + (clean ++ ['\n']).length,
            k, lvl, consec⟩ : Format)]).filter (fun f => f.kind ≠ FKind.codeBlockF)).Pairwise
      (fun a b => a.stop ≤ b.start))
    rw [List.filter_append]
    apply List.pairwise_append.mpr
    refine ⟨hpw, List.Pairwise.filter _ (List.pairwise_singleton _ _), ?_⟩
    intro a ha b hb
    have hb' := List.mem_filter.mp hb
    have hb'' : b = ⟨1 + st.currentOffset,
        1 + st.currentOffset + (clean ++ ['\n']).length, k, lvl, consec⟩ := by
      simpa using hb'.1
    rw [hb'']
    show a.stop ≤ 1 + st.currentOffset
    exact (hbd a ha).2.2
  · intro f hf
    have hf2 : f ∈ (st.formats.filter (fun f => f.kind ≠ FKind.codeBlockF))
        ++ ([(⟨1 + st.currentOffset, 1 + st.currentOffset + (clean ++ ['\n']).length,
            k, lvl, consec⟩ : Format)].filter (fun f => f.kind ≠ FKind.codeBlockF)) := by
      rw [← List.filter_append]
      exact hf
    rw [List.mem_append] at hf2
    rcases hf2 with hf2 | hf2
    · obtain ⟨h1, h2, h3⟩ := hbd f hf2
      refine ⟨h1, h2, ?_⟩
      show f.stop ≤ 1 + (st.currentOffset + (clean ++ ['\n']).length)
      omega
    · have hf' := List.mem_filter.mp hf2
      have hf'' : f = ⟨1 + st.currentOffset,
          1 + st.currentOffset + (clean ++ ['\n']).length, k, lvl, consec⟩ := by
        simpa using hf'.1
      rw [hf'']
      refine ⟨?_, ?_, ?_⟩
      · show 1 ≤ 1 + st.currentOffset
        omega
      · show 1 + st.currentOffset < 1 + st.currentOffset + (clean ++ ['\n']).length
        have : 1 ≤ (clean ++ ['\n']).length := by simp
        omega
      · show 1 + st.currentOffset + (clean ++ ['\n']).length
          ≤ 1 + (st.currentOffset + (clean ++ ['\n']).length)
        omega
  · show (st.fullText ++ clean ++ ['\n']).length
      = st.currentOffset + (clean ++ ['\n']).length
    simp only [List.length_append]
    omega

theorem UInv_stepU {st st' : UState} (hinv : UInv st) {line : S}
    (h : stepU st line = some st') : UInv st' := by
  unfold stepU at h
  by_cases h1 : ((str "```").isPrefixOf (stripPy line)) = true
  · rw [if_pos h1] at h
    injection h with h
    subst h
    exact hinv
  · rw [if_neg h1] at h
    by_cases h2 : st.inCode = true
    · rw [if_pos h2] at h
      cases hsv : st.startVar with
      | none => rw [hsv] at h; exact Option.noConfusion h
      | some sv =>
        rw [hsv] at h
        injection h with h
        subst h
        obtain ⟨hpw, hbd, hlen⟩ := hinv
        have h0 : List.filter (fun f => decide (f.kind ≠ FKind.codeBlockF))
            [(⟨sv, sv + (line ++ ['\n']).length, FKind.codeBlockF, 0, false⟩ : Format)]
            = [] := by simp
        refine ⟨?_, ?_, ?_⟩
        · show ((st.formats
              ++ [(⟨sv, sv + (line ++ ['\n']).length, FKind.codeBlockF, 0, false⟩ : Format)]).filter
            (fun f => f.kind ≠ FKind.codeBlockF)).Pairwise (fun a b => a.stop ≤ b.start)
          rw [List.filter_append, h0, List.append_nil]
          exact hpw
        · intro f hf
          have hf2 : f ∈ st.formats.filter (fun f => f.kind ≠ FKind.codeBlockF) := by
            have := hf
            rw [show ((st.formats
                ++ [(⟨sv, sv + (line ++ ['\n']).length, FKind.codeBlockF, 0, false⟩ : Format)]).filter
              (fun f => decide (f.kind ≠ FKind.codeBlockF)))
              = st.formats.filter (fun f => decide (f.kind ≠ FKind.codeBlockF))
              from by rw [List.filter_append, h0, List.append_nil]] at this
            exact this
          obtain ⟨ha, hb, hc⟩ := hbd f hf2
          refine ⟨ha, hb, ?_⟩
          show f.stop ≤ 1 + (st.currentOffset + (line ++ ['\n']).length)
          omega
        · show (st.fullText ++ line ++ ['\n']).length
            = st.currentOffset + (line ++ ['\n']).length
          simp only [List.length_append]
          omega
    · rw [if_neg h2] at h
      by_cases h3 : (rstripPy line).isEmpty = true
      · rw [if_pos h3] at h
        injection h with h
        subst h
        exact hinv
      · rw [if_neg h3] at h
        injection h with h
        subst h
        unfold stepURest
        repeat' split
        all_goals exact UInv_pushBlock hinv _ _ _ _ _

theorem UInv_runU : ∀ (lines : List S) (st st' : UState),
    UInv st → runU lines st = some st' → UInv st' := by
  intro lines
  induction lines with
  | nil =>
    intro st st' hinv h
    injection h with h
    subst h
    exact hinv
  | cons l ls ih =>
    intro st st' hinv h
    unfold runU at h
    cases hs : stepU st l with
    | none => rw [hs] at h; exact Option.noConfusion h
    | some st1 =>
      rw [hs] at h
      exact ih st1 st' (UInv_stepU hinv hs) h

theorem UInv_buildU {lines : List S} {st : UState} (h : buildU lines = some st) :
    UInv st := UInv_runU lines initU st UInv_init h

theorem blockOpsFor_paraRange (rtl : Bool) (font : String) (f : Format) :
    (blockOpsFor rtl font f).filterMap paraRange
      = if emitsPara rtl f then [(f.start, f.stop)] else [] := by
  obtain ⟨s0, e0, k0, l0, c0⟩ := f
  cases k0 <;> cases rtl <;> simp [blockOpsFor, emitsPara, paraRange]

theorem flatten_paraRanges (rtl : Bool) (font : String) :
    ∀ fs : List Format,
      ((fs.map (blockOpsFor rtl font)).flatten).filterMap paraRange
        = (fs.filter (emitsPara rtl)).map (fun f => (f.start, f.stop)) := by
  intro fs
  induction fs with
  | nil => rfl
  | cons f rest ih =>
    rw [List.map_cons, List.flatten_cons, List.filterMap_append, ih,
      blockOpsFor_paraRange, List.filter_cons]
    by_cases he : emitsPara rtl f = true
    · rw [if_pos he, if_pos he]
      rfl
    · rw [if_neg he, if_neg he]
      rfl

theorem filter_emits_sub (rtl : Bool) (fs : List Format) :
    fs.filter (emitsPara rtl)
      = (fs.filter (fun f => f.kind ≠ FKind.codeBlockF)).filter (emitsPara rtl) := by
  rw [List.filter_filter]
  apply List.filter_congr
  intro f _
  obtain ⟨s0, e0, k0, l0, c0⟩ := f
  cases k0 <;> cases rtl <;> simp [emitsPara]

/-- C3: the request batch of `upload_markdown_content` is assembled in the
fixed order — `insertText`, then the full-document base text/paragraph
styles, then the per-block styles, then the inline span styles — and among
the per-block operations no two `updateParagraphStyle` operations describe
overlapping `[start, end)` ranges; every such range lies inside the
inserted text. -/
theorem gdocs_request_order_disjoint (lines : List S) (lang : String) (st : UState)
    (h : buildU lines = some st) :
    buildRequests st lang
      = GRequest.insertText st.fullText
        :: (baseOps lang st.fullText.length
          ++ (st.formats.map (blockOpsFor (isRtlLang lang) (fontFor lang))).flatten
          ++ inlineOps st.inlines) ∧
    (((st.formats.map (blockOpsFor (isRtlLang lang) (fontFor lang))).flatten).filterMap
        paraRange).Pairwise rangesDisjoint ∧
    (∀ r ∈ ((st.formats.map (blockOpsFor (isRtlLang lang) (fontFor lang))).flatten).filterMap
        paraRange, 1 ≤ r.1 ∧ r.2 ≤ 1 + st.fullText.length) := by
  obtain ⟨hpw, hbd, hlen⟩ := UInv_buildU h
  refine ⟨rfl, ?_, ?_⟩
  · rw [flatten_paraRanges]
    refine List.Pairwise.map (R := fun (a b : Format) => a.stop ≤ b.start)
      (fun (f : Format) => (f.start, f.stop)) ?_ ?_
    · intro a b hab
      exact Or.inl hab
    · rw [filter_emits_sub]
      exact hpw.filter _
  · intro r hr
    rw [flatten_paraRanges] at hr
    obtain ⟨f, hf, hfr⟩ := List.mem_map.mp hr
    rw [filter_emits_sub] at hf
    have hf2 := List.mem_of_mem_filter hf
    obtain ⟨h1, _, h3⟩ := hbd f hf2
    rw [← hfr]
    exact ⟨h1, by rw [hlen]; exact h3⟩

theorem gdocs_request_order_disjoint_witness :
    buildRequests ((buildU [str "# T", str "- a", str "texto"]).getD initU) "ar"
      = GRequest.insertText ((buildU [str "# T", str "- a", str "texto"]).getD initU).fullText
        :: (baseOps "ar"
            ((buildU [str "# T", str "- a", str "texto"]).getD initU).fullText.length
          ++ ((((buildU [str "# T", str "- a", str "texto"]).getD initU).formats.map
              (blockOpsFor (isRtlLang "ar") (fontFor "ar"))).flatten)
          ++ inlineOps ((buildU [str "# T", str "- a", str "texto"]).getD initU).inlines) ∧
    (((((buildU [str "# T", str "- a", str "texto"]).getD initU).formats.map
        (blockOpsFor (isRtlLang "ar") (fontFor "ar"))).flatten).filterMap
        paraRange).Pairwise rangesDisjoint ∧
    (∀ r ∈ ((((buildU [str "# T", str "- a", str "texto"]).getD initU).formats.map
        (blockOpsFor (isRtlLang "ar") (fontFor "ar"))).flatten).filterMap paraRange,
      1 ≤ r.1 ∧ r.2 ≤ 1
        + ((buildU [str "# T", str "- a", str "texto"]).getD initU).fullText.length) :=
  gdocs_request_order_disjoint [str "# T", str "- a", str "texto"] "ar"
    ((buildU [str "# T", str "- a", str "texto"]).getD initU) (by decide)

/-! ## Title demotion (C4) -/

theorem headingParse_head {l h t : S} (hp : headingParse l = some (h, t)) :
    ∃ rest : S, l = '#' :: rest := by
  obtain ⟨hh1, _, _, hlen⟩ := headingParse_eq_some hp
  cases l with
  | nil =>
    rw [List.takeWhile_nil] at hh1
    rw [hh1] at hlen
    simp at hlen
  | cons c cs =>
    rw [List.takeWhile_cons] at hh1
    cases hc : (c == '#') with
    | true =>
      have : c = '#' := by simpa using hc
      exact ⟨cs, by rw [this]⟩
    | false =>
      rw [hc] at hh1
      simp at hh1
      rw [hh1] at hlen
      simp at hlen

theorem dropWhile_cons_of_neg {p : Char → Bool} {c : Char} (rest : S)
    (hc : p c = false) : (c :: rest).dropWhile p = c :: rest := by
  rw [List.dropWhile_cons, hc]
  simp

theorem dropWhile_append_singleton {p : Char → Bool} (a : S) {c : Char}
    (hc : p c = false) : (a ++ [c]).dropWhile p = a.dropWhile p ++ [c] := by
  induction a with
  | nil => simp [List.dropWhile_cons, hc]
  | cons x xs ih =>
    rw [List.cons_append, List.dropWhile_cons, List.dropWhile_cons]
    cases hx : p x with
    | true => simpa [hx] using ih
    | false => simp [hx]

theorem dropTrailing_cons_of_not {p : Char → Bool} {c : Char} (hc : p c = false)
    (rest : S) : dropTrailing p (c :: rest) = c :: dropTrailing p rest := by
  unfold dropTrailing
  rw [show (c :: rest).reverse = rest.reverse ++ [c] by simp,
    dropWhile_append_singleton _ hc]
  simp

theorem stripPy_cons_of_not {c : Char} (hc : isPySpace c = false) (rest : S) :
    stripPy (c :: rest) = c :: dropTrailing isPySpace rest := by
  unfold stripPy
  rw [dropWhile_cons_of_neg _ hc, dropTrailing_cons_of_not hc]

theorem rstripPy_cons_of_not {c : Char} (hc : isPySpace c = false) (rest : S) :
    rstripPy (c :: rest) = c :: dropTrailing isPySpace rest :=
  dropTrailing_cons_of_not hc rest

theorem isFence_hash {rest : S} : isFence ('#' :: rest) = false := by
  unfold isFence
  rw [stripPy_cons_of_not (by decide) rest]
  simp [str, List.isPrefixOf]

theorem tableRowMatch_head {l : S} {c : Char} {xs : S} (hc : (c == '|') = false)
    (h : rstripPy l = c :: xs) : tableRowMatch l = false := by
  unfold tableRowMatch
  rw [h]
  simp [hc]

theorem flushBuf_nil {s : GenState} (h : s.buffer = []) : flushBuf s = s := by
  obtain ⟨tw, lwh, le, ll, buf, ic, cl, tr, ev⟩ := s
  simp only [] at h
  subst h
  rfl

/-- The heading branch of `convert_markdown_to_docx`: with no pending
buffer/table/code state, a heading line emits exactly one event — the
document title for the first level-1 heading, otherwise a heading of Word
rank `min(max(1, level - 1), 9)`. -/
theorem stepGen_heading (s : GenState) (line h t : S)
    (hic : s.inCode = false) (htr : s.tableRows = []) (hbuf : s.buffer = [])
    (hh : headingParse line = some (h, t)) :
    stepGen s line
      = if h.length = 1 ∧ s.titleWritten = false then
          { s with
            events := s.events ++ [DocEvent.title (stripPy t)]
            titleWritten := true
            lastWasHeading := true }
        else
          { s with
            events := s.events
              ++ [DocEvent.heading (min (max 1 (h.length - 1)) 9) (stripPy t)]
            lastWasHeading := true } := by
  obtain ⟨rest, hline⟩ := headingParse_head hh
  have hfence : isFence line = false := by rw [hline]; exact isFence_hash
  have hrow : tableRowMatch line = false := by
    have h9 : rstripPy line = '#' :: dropTrailing isPySpace rest := by
      rw [hline]
      exact rstripPy_cons_of_not (by decide) rest
    exact tableRowMatch_head (by decide) h9
  unfold stepGen
  rw [if_neg (by rw [hfence]; exact Bool.false_ne_true),
    if_neg (by rw [hic]; exact Bool.false_ne_true),
    if_neg (by rw [hrow]; exact Bool.false_ne_true),
    if_pos (by rw [htr]; rfl)]
  unfold stepGenRest
  rw [hh]
  rw [flushBuf_nil hbuf]

/-- C4 (amended): in the page-layout generator only the first level-1
heading becomes the document title and every other heading (including
later level-1 headings) becomes a normal heading of Word rank
`min(max(1, level − 1), 9)`; in the range-based emitter, EVERY level-1
heading is styled with the TITLE named style, and a level-k heading with
k ≥ 2 is styled `HEADING_{min(k − 1, 6)}`. -/
theorem title_demotion_amended :
    (∀ (s : GenState) (line h t : S),
      s.inCode = false → s.tableRows = [] → s.buffer = [] →
      headingParse line = some (h, t) →
      stepGen s line
        = if h.length = 1 ∧ s.titleWritten = false then
            { s with
              events := s.events ++ [DocEvent.title (stripPy t)]
              titleWritten := true
              lastWasHeading := true }
          else
            { s with
              events := s.events
                ++ [DocEvent.heading (min (max 1 (h.length - 1)) 9) (stripPy t)]
              lastWasHeading := true }) ∧
    (∀ (lines : List S) (lang : String) (st : UState) (f : Format),
      buildU lines = some st → f ∈ st.formats → f.kind = FKind.headingF →
      (f.level = 1 →
        GRequest.updateParagraphStyle f.start f.stop
            (PTag.headingStyle NamedStyle2.titleStyle f.consec (isRtlLang lang))
          ∈ buildRequests st lang) ∧
      (2 ≤ f.level →
        GRequest.updateParagraphStyle f.start f.stop
            (PTag.headingStyle (NamedStyle2.headingN (min (f.level - 1) 6))
              f.consec (isRtlLang lang))
          ∈ buildRequests st lang)) := by
  constructor
  · exact stepGen_heading
  · intro lines lang st f _ hf hkind
    have hmem : ∀ nst : NamedStyle2, namedFor f.level = nst →
        GRequest.updateParagraphStyle f.start f.stop
            (PTag.headingStyle nst f.consec (isRtlLang lang))
          ∈ buildRequests st lang := by
      intro nst hnamed
      have hop : GRequest.updateParagraphStyle f.start f.stop
          (PTag.headingStyle nst f.consec (isRtlLang lang))
          ∈ blockOpsFor (isRtlLang lang) (fontFor lang) f := by
        obtain ⟨s0, e0, k0, l0, c0⟩ := f
        simp only [] at hkind
        subst hkind
        simp only [] at hnamed
        unfold blockOpsFor
        rw [← hnamed]
        simp
      have hflat : GRequest.updateParagraphStyle f.start f.stop
          (PTag.headingStyle nst f.consec (isRtlLang lang))
          ∈ (st.formats.map (blockOpsFor (isRtlLang lang) (fontFor lang))).flatten := by
        rw [List.mem_flatten]
        exact ⟨_, List.mem_map_of_mem _ hf, hop⟩
      unfold buildRequests
      apply List.mem_cons_of_mem
      exact List.mem_append_left _ (List.mem_append_right _ hflat)
    constructor
    · intro hl1
      apply hmem
      unfold namedFor
      rw [if_pos hl1]
    · intro hl2
      apply hmem
      unfold namedFor
      rw [if_neg (by omega)]

/-- The named styles of the heading paragraph operations, in order. -/
def headingNamedStyles (lines : List S) (lang : String) : Option (List NamedStyle2) :=
  (buildU lines).map (fun st => (buildRequests st lang).filterMap (fun r =>
    match r with
    | GRequest.updateParagraphStyle _ _ (PTag.headingStyle n _ _) => some n
    | _ => none))

/-- C4 counterexample: for the document `# A` / `# B` the range-based
emitter styles BOTH level-1 headings with the TITLE named style — the
second is not demoted to a rank-1 heading as the claim requires. -/
theorem gdocs_second_title_counterexample :
    headingNamedStyles [str "# A", str "# B"] "es"
      = some [NamedStyle2.titleStyle, NamedStyle2.titleStyle] := by
  decide

theorem title_demotion_amended_witness :
    (stepGen initGen (str "## X")
      = if (str "##").length = 1 ∧ initGen.titleWritten = false then
          { initGen with
            events := initGen.events ++ [DocEvent.title (stripPy (str "X"))]
            titleWritten := true
            lastWasHeading := true }
        else
          { initGen with
            events := initGen.events
              ++ [DocEvent.heading (min (max 1 ((str "##").length - 1)) 9)
                    (stripPy (str "X"))]
            lastWasHeading := true }) ∧
    (((1 : Nat) = 1 →
      GRequest.updateParagraphStyle 1 3
          (PTag.headingStyle NamedStyle2.titleStyle false (isRtlLang "es"))
        ∈ buildRequests ((buildU [str "# A"]).getD initU) "es") ∧
     (2 ≤ (1 : Nat) →
      GRequest.updateParagraphStyle 1 3
          (PTag.headingStyle (NamedStyle2.headingN (min (1 - 1) 6)) false
            (isRtlLang "es"))
        ∈ buildRequests ((buildU [str "# A"]).getD initU) "es")) :=
  ⟨title_demotion_amended.1 initGen (str "## X") (str "##") (str "X")
      rfl rfl rfl (by decide),
   title_demotion_amended.2 [str "# A"] "es" ((buildU [str "# A"]).getD initU)
      ⟨1, 3, FKind.headingF, 1, false⟩ (by decide) (by decide) rfl⟩


/-! ## Code fences (C5) -/

/-- C5 (amended): in `convert_markdown_to_docx` a triple-backtick line
toggles the code flag (flushing the paragraph buffer on open and the
captured code on close); while the flag is set every non-fence line —
blank lines included — is captured verbatim with no inline parsing, and
on close the captured lines are replayed as verbatim code paragraphs
(the `*a*` below stays literal).  The translation pipeline however has no
fence handling, so code content is NOT excluded from translation. -/
theorem code_fence_amended :
    (∀ (s : GenState) (line : S), isFence line = true → s.inCode = false →
      stepGen s line = { flushBuf s with inCode := true }) ∧
    (∀ (s : GenState) (line : S), isFence line = true → s.inCode = true →
      stepGen s line = { flushCode s with inCode := false }) ∧
    (∀ (s : GenState) (line : S), isFence line = false → s.inCode = true →
      stepGen s line = { s with codeLines := s.codeLines ++ [line] }) ∧
    convertEvents [str "```", str "", str "*a* b", str "```"]
      = [DocEvent.codeLine (str ""), DocEvent.codeLine (str "*a* b")] := by
  refine ⟨?_, ?_, ?_, by decide⟩
  · intro s line hf hic
    unfold stepGen
    rw [if_pos hf, if_neg (by rw [hic]; exact Bool.false_ne_true)]
  · intro s line hf hic
    unfold stepGen
    rw [if_pos hf, if_pos hic]
  · intro s line hf hic
    unfold stepGen
    rw [if_neg (by rw [hf]; exact Bool.false_ne_true), if_pos hic]

/-- C5 counterexample: `parse_markdown_lines` has no fence handling — the
fence lines and the code content of a fenced block are classified as
body text and their texts ARE extracted for translation. -/
theorem pipeline_translates_code_counterexample :
    extractTexts (parseMarkdownLines [str "```", str "*x*", str "```"])
      = [str "```", str "*x*", str "```"] := by
  decide

theorem code_fence_amended_witness :
    stepGen initGen (str "```") = { flushBuf initGen with inCode := true } ∧
    stepGen { initGen with inCode := true } (str "*a* b")
      = { { initGen with inCode := true } with
          codeLines :=
            ({ initGen with inCode := true } : GenState).codeLines ++ [str "*a* b"] } :=
  ⟨code_fence_amended.1 initGen (str "```") (by decide) rfl,
   code_fence_amended.2.2.1 { initGen with inCode := true } (str "*a* b")
     (by decide) rfl⟩

/-! ## Bullet splitting (C10) -/

theorem prefix_two {a b : Char} {t : S} (h : List.isPrefixOf [a, b] t = true) :
    ∃ r, t = a :: b :: r := by
  match t with
  | [] => simp [List.isPrefixOf] at h
  | [c] => simp [List.isPrefixOf] at h
  | c :: d :: r =>
    simp [List.isPrefixOf] at h
    exact ⟨r, by simp [h.1, h.2]⟩

theorem pySpace_ne {c x : Char} (h : isPySpace c = true) (hx : isPySpace x = false) :
    (c == x) = false := by
  cases hcx : c == x with
  | false => rfl
  | true =>
    have hce : c = x := by simpa using hcx
    rw [hce, hx] at h
    exact Bool.noConfusion h

theorem bqParse_none {c : Char} (cs : S) (hc : (c == '>') = false) :
    bqParse (c :: cs) = none := by
  unfold bqParse
  split
  · rename_i r heq
    injection heq with h1 _
    rw [h1] at hc
    simp at hc
  · rfl

theorem dropTrailing_cons_head (p : Char → Bool) (c : Char) (cs : S) :
    dropTrailing p (c :: cs) = [] ∨ ∃ xs, dropTrailing p (c :: cs) = c :: xs := by
  unfold dropTrailing
  rw [List.reverse_cons]
  cases hdw : (cs.reverse ++ [c]).dropWhile p with
  | nil => exact Or.inl rfl
  | cons y ys =>
    right
    have hsuf : (cs.reverse ++ [c]).dropWhile p <:+ (cs.reverse ++ [c]) :=
      List.dropWhile_suffix p
    obtain ⟨pre, hp2⟩ := hsuf
    rw [hdw] at hp2
    have hlast : (y :: ys).getLast? = some c := by
      have h1 := getLast?_append_of_ne_nil (a := pre) (b := y :: ys) (by simp)
      rw [hp2] at h1
      rw [getLast?_append_of_ne_nil (a := cs.reverse) (b := [c]) (by simp)] at h1
      simpa using h1.symm
    cases hrev : (y :: ys).reverse with
    | nil => simp at hrev
    | cons z zs =>
      have hz : z = c := by
        have h2 := List.head?_reverse (y :: ys)
        rw [hrev, hlast] at h2
        simpa using h2
      exact ⟨zs, by rw [hz]⟩

theorem listTrim_head {line : S} {rest : S} (h : listTrim line = '-' :: rest) :
    ∃ c cs, line = c :: cs ∧ ((c == '-') = true ∨ isPySpace c = true) := by
  cases line with
  | nil => exact absurd h (by simp [listTrim, stripPy, dropTrailing])
  | cons c cs =>
    refine ⟨c, cs, rfl, ?_⟩
    cases hst : (c == ' ' || c == '\t') with
    | true =>
      right
      cases hsp : c == ' ' with
      | true => rw [show c = ' ' from by simpa using hsp]; rfl
      | false =>
        rw [hsp] at hst
        simp at hst
        rw [show c = '\t' from by simpa using hst]
        rfl
    | false =>
      have hd : (c :: cs).dropWhile (fun c => c == ' ' || c == '\t') = c :: cs :=
        dropWhile_cons_of_neg _ hst
      cases hps : isPySpace c with
      | true => exact Or.inr rfl
      | false =>
        left
        unfold listTrim at h
        rw [hd, stripPy_cons_of_not hps] at h
        injection h with h1 _
        rw [h1]
        rfl

theorem dropWhile_pySpace_st (line : S) :
    line.dropWhile isPySpace
      = (line.dropWhile (fun c => c == ' ' || c == '\t')).dropWhile isPySpace := by
  induction line with
  | nil => rfl
  | cons c cs ih =>
    cases hst : (c == ' ' || c == '\t') with
    | true =>
      have hps : isPySpace c = true := by
        cases hsp : c == ' ' with
        | true => rw [show c = ' ' from by simpa using hsp]; rfl
        | false =>
          rw [hsp] at hst
          simp at hst
          rw [show c = '\t' from by simpa using hst]
          rfl
      simpa [List.dropWhile_cons, hps, hst] using ih
    | false =>
      conv_rhs => rw [List.dropWhile_cons, hst]
      simp

theorem stripPy_listTrim (line : S) : stripPy line = listTrim line := by
  unfold stripPy listTrim
  rw [dropWhile_pySpace_st]
  rfl

theorem flushN_nil {s : NState} (h : s.buffer = []) : flushN s = s := by
  obtain ⟨tw, buf, ev⟩ := s
  simp only [] at h
  subst h
  rfl

/-- A line whose trimmed form starts with `"- "` falls through every
earlier branch of the conversion loops. -/
theorem bulletLine_facts {line rest : S} (hlt : listTrim line = '-' :: ' ' :: rest) :
    isFence line = false ∧ tableRowMatch line = false ∧ headingParse line = none ∧
      (stripPy line).isEmpty = false ∧ bqParse line = none ∧ hrDocgen line = false ∧
      numberParseNoWs (listTrim line) = none ∧ alphaParse (listTrim line) = none := by
  have hstrip : stripPy line = listTrim line := stripPy_listTrim line
  obtain ⟨c, cs, hline, hc⟩ := listTrim_head hlt
  have hcneq : ∀ x : Char, isPySpace x = false → x ≠ '-' → (c == x) = false := by
    intro x hx hxd
    rcases hc with h1 | h1
    · rw [show c = '-' from by simpa using h1]
      cases hq : ('-' == x) with
      | false => rfl
      | true =>
        have hq2 : '-' = x := by simpa using hq
        exact absurd hq2.symm hxd
    · exact pySpace_ne h1 hx
  refine ⟨?_, ?_, ?_, ?_, ?_, ?_, ?_, ?_⟩
  · unfold isFence
    rw [hstrip, hlt]
    simp [str, List.isPrefixOf]
  · rcases dropTrailing_cons_head isPySpace c cs with hnil | ⟨xs, hxs⟩
    · unfold tableRowMatch
      rw [show rstripPy line = [] from by rw [hline]; exact hnil]
    · exact tableRowMatch_head (hcneq '|' (by decide) (by decide))
        (by rw [hline]; exact hxs)
  · cases hp : headingParse line with
    | none => rfl
    | some pr =>
      obtain ⟨h1, t1⟩ := pr
      obtain ⟨r2, hr2⟩ := headingParse_head hp
      rw [hline] at hr2
      injection hr2 with hch _
      have h3 := hcneq '#' (by decide) (by decide)
      rw [hch] at h3
      simp at h3
  · rw [hstrip, hlt]
    rfl
  · rw [hline]
    exact bqParse_none cs (hcneq '>' (by decide) (by decide))
  · obtain ⟨suf, hdec, _⟩ := dropTrailing_decomp isPySpace (line.dropWhile isPySpace)
    have hdw2 : line.dropWhile isPySpace = '-' :: ' ' :: (rest ++ suf) := by
      rw [hdec]
      have h2 : dropTrailing isPySpace (line.dropWhile isPySpace)
          = '-' :: ' ' :: rest := by
        show stripPy line = '-' :: ' ' :: rest
        rw [hstrip, hlt]
      rw [h2]
      rfl
    unfold hrDocgen
    rw [hdw2]
    simp [str, List.isPrefixOf]
  · rw [hlt]
    rfl
  · rw [hlt]
    rfl

/-- C10: in both `convert_markdown_to_docx` and `make_notes.md_to_docx` a
line whose trimmed form starts with `"- "` is emitted through the bullet
branch (`bulletEvents` on the content after the dash); when that content
contains the literal `" - "` separator it is split at it into sibling
bullets, all at the line's nesting level, with empty parts dropped — as
the concrete `- a - b -  - c` run shows. -/
theorem bullet_split_behavior :
    (∀ (s : GenState) (line : S),
      s.inCode = false → s.tableRows = [] → s.buffer = [] →
      (str "- ").isPrefixOf (listTrim line) = true →
      stepGen s line
        = { s with
            events := s.events
              ++ bulletEvents (listLevelOf line) (stripPy ((listTrim line).drop 2))
            lastWasHeading := false
            lastElementType := ElemType.list
            lastListLevel := listLevelOf line }) ∧
    (∀ (s : NState) (line : S),
      s.buffer = [] →
      (str "- ").isPrefixOf (listTrim line) = true →
      stepNotes s line
        = { s with
            events := s.events
              ++ bulletEvents (listLevelOf line) (stripPy ((listTrim line).drop 2)) }) ∧
    (∀ (lvl : Nat) (content : S), containsSub (str " - ") content = true →
      bulletEvents lvl content
        = (bulletParts content).map
            (fun part => DocEvent.bullet lvl (bulletItemText part))) ∧
    convertEvents [str "- a - b -  - c"]
      = [DocEvent.bullet 0 (str "a"), DocEvent.bullet 0 (str "b"),
         DocEvent.bullet 0 (str "c")] := by
  refine ⟨?_, ?_, ?_, by decide⟩
  · intro s line hic htr hbuf hpre
    obtain ⟨rest, hlt⟩ := prefix_two hpre
    obtain ⟨hfence, hrow, hhp, hnemp, hbq, hhr, hnum, halpha⟩ := bulletLine_facts hlt
    have hfb : flushBuf { s with lastWasHeading := false }
        = { s with lastWasHeading := false } := flushBuf_nil hbuf
    unfold stepGen
    rw [if_neg (by rw [hfence]; exact Bool.false_ne_true),
      if_neg (by rw [hic]; exact Bool.false_ne_true),
      if_neg (by rw [hrow]; exact Bool.false_ne_true),
      if_pos (by rw [htr]; rfl)]
    unfold stepGenRest
    rw [hhp]
    show stepGenBody { s with lastWasHeading := false } line = _
    unfold stepGenBody stepGenList
    simp only [hnemp, hbq, hhr, hnum, halpha, hpre, hfb, Bool.false_eq_true,
      if_false, if_true, ite_true, ite_false]
  · intro s line hbuf hpre
    obtain ⟨rest, hlt⟩ := prefix_two hpre
    obtain ⟨_, _, hhp, hnemp, _, _, hnum, _⟩ := bulletLine_facts hlt
    have hfn : flushN s = s := flushN_nil hbuf
    unfold stepNotes
    rw [hhp]
    show (if (stripPy line).isEmpty = true then flushN s
        else
          match numberParseNoWs (listTrim line) with
          | some (_, t) =>
            { flushN s with
              events := (flushN s).events
                ++ [DocEvent.numbered (listLevelOf line) (stripPy t)] }
          | none =>
            if (str "- ").isPrefixOf (listTrim line) = true then
              { flushN s with
                events := (flushN s).events
                  ++ bulletEvents (listLevelOf line)
                      (stripPy ((listTrim line).drop 2)) }
            else { s with buffer := s.buffer ++ [line] }) = _
    simp only [hnemp, hnum, hpre, hfn, Bool.false_eq_true, if_false, if_true,
      ite_true, ite_false]
  · intro lvl content h
    unfold bulletEvents
    rw [if_pos h]

theorem bullet_split_behavior_witness :
    stepGen initGen (str "- a")
      = { initGen with
          events := initGen.events
            ++ bulletEvents (listLevelOf (str "- a"))
                (stripPy ((listTrim (str "- a")).drop 2))
          lastWasHeading := false
          lastElementType := ElemType.list
          lastListLevel := listLevelOf (str "- a") } ∧
    stepNotes initN (str "- x")
      = { initN with
          events := initN.events
            ++ bulletEvents (listLevelOf (str "- x"))
                (stripPy ((listTrim (str "- x")).drop 2)) } :=
  ⟨bullet_split_behavior.1 initGen (str "- a") rfl rfl rfl (by decide),
   bullet_split_behavior.2.1 initN (str "- x") rfl (by decide)⟩

end MdTool
